import Mathlib

/-!
Verification of the HTTP/2 server-push core of `modules/http2/h2_push.c`:
link-header parameter handling, push-candidate construction, the push diary
(bounded LRU set of 64-bit hashes) and the Golomb-Rice cache-digest encoder.

Machine integers are modelled as `Nat` with explicit reduction `% 2 ^ w`
where the C code can wrap.  External collaborators are modelled by their
documented semantics: OpenSSL's `EVP_sha256` by an executable FIPS 180-4
SHA-256 over byte lists, APR's `apr_hashfunc_default` by the times-33 hash,
APR tables (`apr_table_setn` / `apr_table_get`) by association lists with
case-insensitive key matching, `strstr` by first-substring search, and
`qsort` with `cmp_puint64` by an ascending sort (on `Nat` the sorted
permutation of a list is unique, so any correct sort is the same function).
-/

namespace HttpdPush

/-! ## SHA-256 (model of OpenSSL `EVP_sha256`, FIPS 180-4) -/

/-- Rotate a 32-bit word right by `n` (0 < n < 32 at all call sites). -/
def rotr32 (x n : Nat) : Nat := ((x >>> n) ||| (x <<< (32 - n))) % 2 ^ 32

/-- Big-endian byte serialisation of `v` into `n` bytes. -/
def beBytes (n v : Nat) : List Nat :=
  match n with
  | 0 => []
  | m + 1 => ((v >>> (8 * m)) % 256) :: beBytes m v

/-- SHA-256 upper-case sigma-0. -/
def shaBSIG0 (x : Nat) : Nat := rotr32 x 2 ^^^ rotr32 x 13 ^^^ rotr32 x 22

/-- SHA-256 upper-case sigma-1. -/
def shaBSIG1 (x : Nat) : Nat := rotr32 x 6 ^^^ rotr32 x 11 ^^^ rotr32 x 25

/-- SHA-256 lower-case sigma-0. -/
def shaSSIG0 (x : Nat) : Nat := rotr32 x 7 ^^^ rotr32 x 18 ^^^ (x >>> 3)

/-- SHA-256 lower-case sigma-1. -/
def shaSSIG1 (x : Nat) : Nat := rotr32 x 17 ^^^ rotr32 x 19 ^^^ (x >>> 10)

/-- The 64 SHA-256 round constants. -/
def shaK : List Nat :=
  [1116352408, 1899447441, 3049323471, 3921009573, 961987163, 1508970993,
   2453635748, 2870763221, 3624381080, 310598401, 607225278, 1426881987,
   1925078388, 2162078206, 2614888103, 3248222580, 3835390401, 4022224774,
   264347078, 604807628, 770255983, 1249150122, 1555081692, 1996064986,
   2554220882, 2821834349, 2952996808, 3210313671, 3336571891, 3584528711,
   113926993, 338241895, 666307205, 773529912, 1294757372, 1396182291,
   1695183700, 1986661051, 2177026350, 2456956037, 2730485921, 2820302411,
   3259730800, 3345764771, 3516065817, 3600352804, 4094571909, 275423344,
   430227734, 506948616, 659060556, 883997877, 958139571, 1322822218,
   1537002063, 1747873779, 1955562222, 2024104815, 2227730452, 2361852424,
   2428436474, 2756734187, 3204031479, 3329325298]

/-- The SHA-256 initial hash value. -/
def shaInitH : List Nat :=
  [1779033703, 3144134277, 1013904242, 2773480762, 1359893119, 2600822924,
   528734635, 1541459225]

/-- One SHA-256 compression round on the eight-word working state. -/
def shaRound (st : List Nat) (k w : Nat) : List Nat :=
  match st with
  | [a, b, c, d, e, f, g, h] =>
    let ch := (e &&& f) ^^^ ((e ^^^ (2 ^ 32 - 1)) &&& g)
    let maj := (a &&& b) ^^^ (a &&& c) ^^^ (b &&& c)
    let t1 := (h + shaBSIG1 e + ch + k + w) % 2 ^ 32
    let t2 := (shaBSIG0 a + maj) % 2 ^ 32
    [(t1 + t2) % 2 ^ 32, a, b, c, (d + t1) % 2 ^ 32, e, f, g]
  | other => other

/-- Next word of the SHA-256 message schedule, from the words so far. -/
def shaScheduleNext (w : List Nat) : Nat :=
  let len := w.length
  (w.getD (len - 16) 0 + shaSSIG0 (w.getD (len - 15) 0)
     + w.getD (len - 7) 0 + shaSSIG1 (w.getD (len - 2) 0)) % 2 ^ 32

/-- Extend a 16-word block to the full 64-word message schedule. -/
def shaSchedule (ws : List Nat) : List Nat :=
  (List.range 48).foldl (fun w _ => w ++ [shaScheduleNext w]) ws

/-- SHA-256 compression of one 16-word block into the running hash. -/
def shaCompress (hs block : List Nat) : List Nat :=
  let w := shaSchedule block
  let st := (shaK.zip w).foldl (fun st kw => shaRound st kw.1 kw.2) hs
  (hs.zip st).map (fun p => (p.1 + p.2) % 2 ^ 32)

/-- Group a flat byte list into big-endian 32-bit words. -/
def bytesToWords : List Nat → List Nat
  | b0 :: b1 :: b2 :: b3 :: rest =>
    (((b0 * 256 + b1) * 256 + b2) * 256 + b3) :: bytesToWords rest
  | _ => []

/-- Process `fuel` 16-word blocks of `ws` through the compression function. -/
def sha256Blocks (hs ws : List Nat) (fuel : Nat) : List Nat :=
  match fuel with
  | 0 => hs
  | fuel + 1 => sha256Blocks (shaCompress hs (ws.take 16)) (ws.drop 16) fuel

/-- SHA-256 of a byte list, as the 32-byte digest. -/
def sha256 (msg : List Nat) : List Nat :=
  let len := msg.length
  let padZeros := (64 - ((len + 9) % 64)) % 64
  let padded := msg ++ [128] ++ List.replicate padZeros 0 ++ beBytes 8 (len * 8)
  let ws := bytesToWords padded
  let hs := sha256Blocks shaInitH ws (ws.length / 16)
  hs.foldr (fun w acc => beBytes 4 w ++ acc) []

/-! ## Push hashes (`calc_sha256_hash`, `calc_apr_hash`) -/

/-- Bytes of an ASCII string, as the C code sees a `const char *`. -/
def strBytes (s : String) : List Nat := s.toList.map Char.toNat

/-- Embedding of `calc_sha256_hash`: digest of
`scheme || "://" || authority || path`, accumulated byte-by-byte into an
`apr_uint64_t` (`val = val * 256 + hash[i]`, wrapping mod `2 ^ 64`), then
shifted right by `64 - mask_bits`. -/
def calc_sha256_hash (mask_bits : Nat) (scheme authority path : String) : Nat :=
  let digest := sha256 (strBytes scheme ++ strBytes "://"
                          ++ strBytes authority ++ strBytes path)
  let val := digest.foldl (fun v b => (v * 256 + b) % 2 ^ 64) 0
  val >>> (64 - mask_bits)

/-- Model of APR's `apr_hashfunc_default`: times-33 hash over the bytes,
in a 32-bit `unsigned int`. -/
def val_apr_hash (s : String) : Nat :=
  (strBytes s).foldl (fun h c => (h * 33 + c) % 2 ^ 32) 0

/-- Embedding of `calc_apr_hash` (64-bit branch): the three component hashes
combined by shifts and xor into one `apr_uint64_t`. -/
def calc_apr_hash (scheme authority path : String) : Nat :=
  ((val_apr_hash scheme <<< 32) ^^^ (val_apr_hash authority <<< 16)
     ^^^ val_apr_hash path) % 2 ^ 64

/-! ## Push diary (`h2_push_diary` and its operations) -/

/-- Push candidate: the fields of `h2_push` / its `h2_request` that this core
reads (`method`, `scheme`, `authority`, `path`, and the priority hint set
from a `critical` link parameter). -/
structure Push where
  method : String
  scheme : String
  authority : String
  path : String
  critical : Bool
deriving DecidableEq, Repr

/-- Digest algorithm selected once at diary creation (`h2_push_digest_type`). -/
inductive H2PushDigestType where
  | aprHash
  | sha256
deriving DecidableEq, Repr

/-- Diary state: `h2_push_diary` with entries as their 64-bit hashes,
oldest first. -/
structure Diary where
  entries : List Nat
  N : Nat
  NMax : Nat
  mask_bits : Nat
  dtype : H2PushDigestType
  authority : Option String
deriving DecidableEq, Repr

/-- The stored hash calculation `diary->dcalc`, dispatching on the digest
type chosen at creation. -/
def dcalc (d : Diary) (p : Push) : Nat :=
  match d.dtype with
  | .aprHash => calc_apr_hash p.scheme p.authority p.path
  | .sha256 => calc_sha256_hash d.mask_bits p.scheme p.authority p.path

/-- Embedding of `ceil_power_of_2`: 2 for arguments at most 2, else the
bit-smearing round-up to the next power of two (faithful to the
`apr_int32_t` original for arguments below `2 ^ 31`). -/
def ceil_power_of_2 (n : Nat) : Nat :=
  if n ≤ 2 then 2
  else
    let m := n - 1
    let m := m ||| (m >>> 1)
    let m := m ||| (m >>> 2)
    let m := m ||| (m >>> 4)
    let m := m ||| (m >>> 8)
    let m := m ||| (m >>> 16)
    m + 1

/-- Embedding of `diary_create`: `NULL` (`none`) when `N` is not positive,
else an empty diary with capacity `ceil_power_of_2 N` and 64 mask bits. -/
def diary_create (dtype : H2PushDigestType) (n : Nat) : Option Diary :=
  if 0 < n then
    some { entries := [], N := ceil_power_of_2 n, NMax := ceil_power_of_2 n,
           mask_bits := 64, dtype := dtype, authority := none }
  else none

/-- Embedding of `h2_push_diary_create` (always requests SHA-256). -/
def h2_push_diary_create (n : Nat) : Option Diary :=
  diary_create .sha256 n

/-- Embedding of `h2_push_diary_find`: scan from the end of the entry array
(most recently used first); `-1` on a miss is modelled as `none`. -/
def diary_find : List Nat → Nat → Option Nat
  | [], _ => none
  | x :: xs, h =>
    match diary_find xs h with
    | some j => some (j + 1)
    | none => if x = h then some 0 else none

/-- Embedding of `move_to_last`: when `idx` is strictly before the last
position, remove that entry and re-append it at the tail. -/
def move_to_last (l : List Nat) (idx : Nat) : List Nat :=
  if idx + 1 < l.length then l.eraseIdx idx ++ [l.getD idx 0] else l

/-- Embedding of `remove_first`: drop the oldest entry, but only when at
least two entries exist (`lastidx > 0` in the C code). -/
def remove_first (l : List Nat) : List Nat :=
  if 1 < l.length then l.tail else l

/-- The loop `while (nelts >= N) remove_first();` of `h2_push_diary_append`,
driven by a fuel of the initial length (each productive iteration shortens
the list by one).  When `N ≤ 1` and a single entry remains the C loop would
spin forever; created diaries always have `N ≥ 2`, where the fuel suffices
and the loop stops with fewer than `N` entries. -/
def evictFuel : Nat → Nat → List Nat → List Nat
  | 0, _, l => l
  | fuel + 1, n, l =>
    if n ≤ l.length then
      if 1 < l.length then evictFuel fuel n l.tail else l
    else l

/-- Eviction loop of `h2_push_diary_append` at its natural fuel. -/
def evict (n : Nat) (l : List Nat) : List Nat :=
  evictFuel l.length n l

/-- Embedding of `h2_push_diary_append`: evict to below capacity, then push
the new entry hash at the tail. -/
def h2_push_diary_append (d : Diary) (e : Nat) : Diary :=
  { d with entries := evict d.N d.entries ++ [e] }

/-- One iteration of the loop in `h2_push_diary_update`: hash the push, look
it up; on a hit move the entry to the most-recently-used position and drop
the push, on a miss append the hash and keep the push. -/
def diary_update_one (d : Diary) (p : Push) : Diary × Option Push :=
  match diary_find d.entries (dcalc d p) with
  | some idx => ({ d with entries := move_to_last d.entries idx }, none)
  | none => (h2_push_diary_append d (dcalc d p), some p)

/-- Embedding of `h2_push_diary_update` when the diary exists: process the
pushes in order, returning the updated diary and the "new" pushes in input
order (the `NULL` result array is modelled as `[]`). -/
def h2_push_diary_update (d : Diary) (pushes : List Push) : Diary × List Push :=
  match pushes with
  | [] => (d, [])
  | p :: rest =>
    let r := diary_update_one d p
    let rr := h2_push_diary_update r.1 rest
    (rr.1, r.2.toList ++ rr.2)

/-! ## Link parameters and the push-candidate builder -/

/-- ASCII lower-casing, as `tolower` acts on the header bytes involved. -/
def ascii_lower (c : Char) : Char :=
  if 'A' ≤ c ∧ c ≤ 'Z' then Char.ofNat (c.toNat + 32) else c

/-- Case-insensitive string equality (APR's `strcasecmp` returning 0). -/
def strcaseeq (a b : String) : Bool :=
  a.toList.map ascii_lower == b.toList.map ascii_lower

/-- Model of `apr_table_get`: first entry whose key matches
case-insensitively, per the documented APR table semantics. -/
def apr_table_get (t : List (String × String)) (k : String) : Option String :=
  match t with
  | [] => none
  | e :: rest => if strcaseeq e.1 k then some e.2 else apr_table_get rest k

/-- Model of `apr_table_setn`: replace the value of the first
case-insensitive match (keeping the stored key), removing any later
matches; append when no key matches. -/
def apr_table_setn (t : List (String × String)) (k v : String) :
    List (String × String) :=
  match t with
  | [] => [(k, v)]
  | e :: rest =>
    if strcaseeq e.1 k then
      (e.1, v) :: rest.filter (fun e2 => !(strcaseeq e2.1 k))
    else e :: apr_table_setn rest k v

/-- The `ctx->params` table after `read_param` has stored the link-value's
parameters, in scan order, each via `apr_table_setn name value` (value `""`
when the parameter has no `=value`). -/
def params_table (ps : List (String × String)) : List (String × String) :=
  ps.foldl (fun t kv => apr_table_setn t kv.1 kv.2) []

/-- Embedding of `has_param`: the parameter is present in the table. -/
def has_param (params : List (String × String)) (name : String) : Bool :=
  (apr_table_get params name).isSome

/-- Model of `strstr` (`ap_strstr_c`): index of the first occurrence of
`needle` as a substring of the haystack, `none` when absent. -/
def strstr_idx (needle : List Char) : List Char → Option Nat
  | [] => if needle.isPrefixOf [] then some 0 else none
  | c :: t =>
    if needle.isPrefixOf (c :: t) then some 0
    else (strstr_idx needle t).map (· + 1)

/-- Embedding of `has_relation`: exact match of the `rel` value, or the
first `strstr` occurrence of `rel` preceded by start-of-string or a space
and followed by end-of-string or a space. -/
def has_relation (params : List (String × String)) (rel : String) : Bool :=
  match apr_table_get params "rel" with
  | none => false
  | some val =>
    if val = rel then true
    else
      match strstr_idx rel.toList val.toList with
      | none => false
      | some i =>
        if i = 0 ∨ val.toList.getD (i - 1) 'x' = ' ' then
          match val.toList.drop (i + rel.length) with
          | [] => true
          | c :: _ => c == ' '
        else false

/-- Parsed link target as this code reads an `apr_uri_t`: optional scheme,
optional hostinfo (host plus optional port), optional path.  The
`apr_uri_unparse(..., APR_URI_UNP_OMITSITEPART)` call is modelled as the
path component. -/
structure AprUri where
  scheme : Option String
  hostinfo : Option String
  path : Option String
deriving DecidableEq, Repr

/-- The originating request's fields this core reads (`h2_request`). -/
structure Req where
  scheme : String
  authority : String
  headers : List (String × String)
deriving DecidableEq, Repr

/-- Embedding of `same_authority`: a present scheme must equal the request
scheme, a present hostinfo must equal the request authority; absent parts
are accepted. -/
def same_authority (req : Req) (uri : AprUri) : Bool :=
  if uri.scheme.any (fun s => s != req.scheme) then false
  else if uri.hostinfo.any (fun h => h != req.authority) then false
  else true

/-- Embedding of `h2_push_policy`. -/
inductive H2PushPolicy where
  | H2_PUSH_NONE
  | H2_PUSH_DEFAULT
  | H2_PUSH_HEAD
  | H2_PUSH_FAST_LOAD
deriving DecidableEq, Repr

/-- Embedding of `set_push_header`'s allow-list test (`H2_HD_MATCH_LIT` is a
length plus case-insensitive compare). -/
def set_push_header_keep (key : String) : Bool :=
  strcaseeq key "User-Agent" || strcaseeq key "Accept"
    || strcaseeq key "Accept-Encoding" || strcaseeq key "Accept-Language"
    || strcaseeq key "Cache-Control"

/-- The synthetic push request's headers: `apr_table_do(set_push_header, ...)`
over the originating request headers. -/
def push_headers (reqHeaders : List (String × String)) : List (String × String) :=
  reqHeaders.foldl
    (fun t kv => if set_push_header_keep kv.1 then apr_table_setn t kv.1 kv.2 else t)
    []

/-- Embedding of `add_push` for one link-value: the candidate produced, if
any.  `uriParse` is the result of `apr_uri_parse` on the text between `<`
and `>` (`none` models a parse failure). -/
def add_push (req : Req) (policy : H2PushPolicy)
    (params : List (String × String)) (uriParse : Option AprUri) : Option Push :=
  if has_relation params "preload" && !(has_param params "nopush") then
    match uriParse with
    | some uri =>
      if uri.path.isSome && same_authority req uri then
        some { method := match policy with
                 | .H2_PUSH_HEAD => "HEAD"
                 | _ => "GET",
               scheme := req.scheme,
               authority := req.authority,
               path := uri.path.getD "",
               critical := has_param params "critical" }
      else none
    | none => none
  else none

/-! ## Golomb-Rice digest encoder (`gset_encoder`, `h2_push_diary_digest_get`) -/

/-- Floor base-2 logarithm by repeated halving, driven by a fuel (the fuel
`n` always suffices for argument `n`). -/
def log2_fuel : Nat → Nat → Nat
  | 0, _ => 0
  | fuel + 1, n => if n ≤ 1 then 0 else log2_fuel fuel (n / 2) + 1

/-- Modelled from the spec: `h2_log2` is defined in `h2_util.c`, which is not
part of this excerpt.  The spec gives `log2n = ceil(log2(ceil_pow2(n)))`, so
the missing function is the ceiling base-2 logarithm
(`floor(log2 (n - 1)) + 1` for `n ≥ 2`); it is only applied to
`ceil_power_of_2` results, i.e. powers of two, where floor and ceiling
agree. -/
def h2_log2 (n : Nat) : Nat :=
  if n ≤ 1 then 0 else log2_fuel (n - 1) (n - 1) + 1

/-- Encoder state (`gset_encoder`): the output buffer `data` of `datalen`
zero-initialised bytes, current byte index `offset`, current bit position
`bit` (0 is the most significant bit of a byte), and the previously encoded
value `last`. -/
structure GsetEncoder where
  log2p : Nat
  mask_bits : Nat
  delta_bits : Nat
  fixed_bits : Nat
  fixed_mask : Nat
  data : List Nat
  datalen : Nat
  offset : Nat
  bit : Nat
  last : Nat
deriving DecidableEq, Repr

/-- The bit masks `cbit_mask`: bit 0 of a byte is its most significant. -/
def cbit_mask : List Nat := [128, 64, 32, 16, 8, 4, 2, 1]

/-- Embedding of `gset_encode_bit`: advance the bit cursor, starting a fresh
`0xff` byte (doubling the backing buffer when exhausted) on byte overflow,
then clear the current bit when a zero is emitted.  (`apr_pcalloc` cannot
fail in this model, so the `APR_ENOMEM` path is absent.) -/
def gset_encode_bit (e : GsetEncoder) (bit : Bool) : GsetEncoder :=
  let e1 :=
    if 8 ≤ e.bit + 1 then
      let offset := e.offset + 1
      let e2 :=
        if e.datalen ≤ offset then
          { e with data := e.data ++ List.replicate e.datalen 0,
                   datalen := e.datalen * 2 }
        else e
      { e2 with offset := offset, bit := 0, data := e2.data.set offset 255 }
    else { e with bit := e.bit + 1 }
  if bit then e1
  else { e1 with
         data := e1.data.set e1.offset
           ((e1.data.getD e1.offset 0) &&& (255 ^^^ cbit_mask.getD e1.bit 0)) }

/-- The unary-quotient loop of `gset_encode_next`: emit that many one bits. -/
def encodeOnes (e : GsetEncoder) : Nat → GsetEncoder
  | 0 => e
  | k + 1 => encodeOnes (gset_encode_bit e true) k

/-- The fixed-width remainder loop of `gset_encode_next`: bits
`fixed_bits - 1` down to `0` of `delta`. -/
def encodeFixed (e : GsetEncoder) (delta : Nat) : GsetEncoder :=
  (List.range e.fixed_bits).reverse.foldl
    (fun acc i => gset_encode_bit acc (((delta >>> i) &&& 1) == 1)) e

/-- Embedding of `gset_encode_next`: `delta = pval - last` in `apr_uint64_t`
arithmetic, then the unary quotient `delta >> fixed_bits`, a terminating
zero bit, and the `fixed_bits` low bits of `delta`, most significant
first. -/
def gset_encode_next (e : GsetEncoder) (pval : Nat) : GsetEncoder :=
  let delta := (pval + 2 ^ 64 - e.last) % 2 ^ 64
  let e1 := { e with last := pval }
  let e2 := encodeOnes e1 (delta >>> e1.fixed_bits)
  let e3 := gset_encode_bit e2 false
  encodeFixed e3 delta

/-- Model of `qsort(..., cmp_puint64)`: ascending sort.  On `Nat` the sorted
permutation of a list is unique, so insertion sort is the same function as
any correct `qsort`. -/
def sortAsc (l : List Nat) : List Nat := List.insertionSort (· ≤ ·) l

/-- The encoding loop of `h2_push_diary_digest_get` after its first
iteration: encode each hash that differs from its predecessor in the sorted
array (`!i || hashes[i] != hashes[i-1]`). -/
def encode_hashes_rest (e : GsetEncoder) (prev : Nat) : List Nat → GsetEncoder
  | [] => e
  | h :: t =>
    if h = prev then encode_hashes_rest e h t
    else encode_hashes_rest (gset_encode_next e h) h t

/-- The encoding loop of `h2_push_diary_digest_get` over the sorted hash
array: the first element is always encoded. -/
def encode_hashes (e : GsetEncoder) : List Nat → GsetEncoder
  | [] => e
  | h :: t => encode_hashes_rest (gset_encode_next e h) h t

/-- Result of a digest export: the `apr_status_t`, the returned bytes
(`*pdata` up to `*plen`), and the diary as the call leaves it. -/
structure DigestResult where
  status : Nat
  bytes : List Nat
  diary : Diary
deriving DecidableEq, Repr

/-- APR's success status value. -/
def APR_SUCCESS : Nat := 0

/-- The encoder state `h2_push_diary_digest_get` prepares before encoding:
`log2n` from the entry count, `log2p = min(mask_bits - log2n, log2pmax)`,
the derived widths, a 512-byte zeroed buffer with the two header bytes
written, `offset = 1`, `bit = 8` and `last = 0`. -/
def digest_encoder_init (d : Diary) (maxP : Nat) : GsetEncoder :=
  let log2n := h2_log2 (ceil_power_of_2 d.entries.length)
  let log2pmax := h2_log2 (ceil_power_of_2 maxP)
  let log2p := min (d.mask_bits - log2n) log2pmax
  { log2p := log2p, mask_bits := log2n + log2p,
    delta_bits := d.mask_bits - (log2n + log2p),
    fixed_bits := log2p, fixed_mask := 2 ^ log2p - 1,
    data := ((List.replicate 512 0).set 0 log2n).set 1 log2p,
    datalen := 512, offset := 1, bit := 8, last := 0 }

/-- The authority-scope test of `h2_push_diary_digest_get`: no request
authority, an unscoped diary, the wildcard `"*"`, or equal strings. -/
def digest_authority_match (d : Diary) (authority : Option String) : Bool :=
  match authority, d.authority with
  | none, _ => true
  | some _, none => true
  | some a, some da => a == "*" || da == a

/-- Embedding of `h2_push_diary_digest_get`: prepare the encoder with the
two header bytes, and when the requested authority scope matches,
Golomb-Rice encode the sorted, deduplicated, right-shifted entry hashes
after them.  Returns `offset + 1` bytes and `APR_SUCCESS`. -/
def h2_push_diary_digest_get (d : Diary) (maxP : Nat)
    (authority : Option String) : DigestResult :=
  let e0 := digest_encoder_init d maxP
  let e1 :=
    if digest_authority_match d authority then
      encode_hashes e0 (sortAsc (d.entries.map (fun h => h >>> e0.delta_bits)))
    else e0
  { status := APR_SUCCESS, bytes := e1.data.take (e1.offset + 1), diary := d }

/-! ## Spec-side definitions

Definitions in this section transcribe the spec's words (for refinement
comparisons against the code embeddings above), not the source. -/

/-- Spec reading under test in claim C4: the highest-order `mask_bits` bits
of the (256-bit, big-endian) SHA-256 digest itself. -/
def spec_sha256_hash (mask_bits : Nat) (scheme authority path : String) : Nat :=
  let digest := sha256 (strBytes scheme ++ strBytes "://"
                          ++ strBytes authority ++ strBytes path)
  let dval := digest.foldl (fun v b => v * 256 + b) 0
  dval >>> (256 - mask_bits)

/-- Amended reading for claim C4: the same fold, but the digest value first
reduced to its low-order 64 bits (the accumulation happens in a 64-bit
register). -/
def amended_sha256_hash (mask_bits : Nat) (scheme authority path : String) : Nat :=
  let digest := sha256 (strBytes scheme ++ strBytes "://"
                          ++ strBytes authority ++ strBytes path)
  let dval := digest.foldl (fun v b => v * 256 + b) 0
  (dval % 2 ^ 64) >>> (64 - mask_bits)

/-- Value of a bit sequence read most-significant-bit first. -/
def bitsVal (bs : List Bool) : Nat :=
  bs.foldl (fun a b => 2 * a + (if b then 1 else 0)) 0

/-- Value of one output byte from up to 8 bits, most significant bit first,
the tail of a final partial byte filled with one bits. -/
def byteOfBits (bs : List Bool) : Nat :=
  bitsVal (bs ++ List.replicate (8 - bs.length) true)

/-- Pack a bit sequence into bytes, most significant bit first within each
byte, the final partial byte one-padded. -/
def packBitsMSB : List Bool → List Nat
  | [] => []
  | b0 :: b1 :: b2 :: b3 :: b4 :: b5 :: b6 :: b7 :: rest =>
    byteOfBits [b0, b1, b2, b3, b4, b5, b6, b7] :: packBitsMSB rest
  | bs => [byteOfBits bs]

/-- Golomb-Rice code of one delta as the spec words it: a unary quotient
`delta >> log2p` of one bits, a terminating zero bit, then the low `log2p`
bits of `delta` in fixed width, most significant first. -/
def golombBits (log2p delta : Nat) : List Bool :=
  List.replicate (delta >>> log2p) true ++ [false]
    ++ (List.range log2p).reverse.map (fun i => ((delta >>> i) &&& 1) == 1)

/-- First-differences of a sorted sequence, the first relative to `last`. -/
def deltasFrom (last : Nat) : List Nat → List Nat
  | [] => []
  | v :: t => (v - last) :: deltasFrom v t

/-- Removal of adjacent duplicates, keeping first occurrences. -/
def dedupAdjRest (prev : Nat) : List Nat → List Nat
  | [] => []
  | x :: t => if x = prev then dedupAdjRest prev t else x :: dedupAdjRest x t

/-- Removal of adjacent duplicates of a list. -/
def dedupAdj : List Nat → List Nat
  | [] => []
  | x :: t => x :: dedupAdjRest x t

/-- Spec description of the digest payload after the 2-byte header (claim
C6): right-shift every stored hash by `delta_bits`, sort ascending,
deduplicate adjacent equal values, Golomb-Rice encode the first-differences
and pack the bits most-significant-first into bytes. -/
def spec_digest_tail (entries : List Nat) (mask_bits maxP : Nat) : List Nat :=
  let log2n := h2_log2 (ceil_power_of_2 entries.length)
  let log2p := min (mask_bits - log2n) (h2_log2 (ceil_power_of_2 maxP))
  let delta_bits := mask_bits - (log2n + log2p)
  let vals := dedupAdj (sortAsc (entries.map (fun h => h >>> delta_bits)))
  packBitsMSB ((deltasFrom 0 vals).map (golombBits log2p)).flatten

/-- Fuel-driven splitting of a character list at spaces (the fuel of the
list's length always suffices). -/
def splitSpacesFuel : Nat → List Char → List (List Char)
  | 0, _ => []
  | _ + 1, [] => []
  | fuel + 1, c :: t =>
    if c = ' ' then splitSpacesFuel fuel t
    else (c :: t.takeWhile (fun d => !(d == ' ')))
           :: splitSpacesFuel fuel (t.dropWhile (fun d => !(d == ' ')))

/-- The space-separated tokens of a string (claim C9's reading of a `rel`
value). -/
def spaceTokens (s : String) : List String :=
  (splitSpacesFuel s.toList.length s.toList).map List.asString

/-- Occurrence of `needle` in `hay` starting at index `i`. -/
def occursAt (hay needle : List Char) (i : Nat) : Prop :=
  (hay.drop i).take needle.length = needle

/-- Spec reading under test in claim C10: parameter lookup matches only the
exact-case name and returns the last-written value. -/
def spec_case_sensitive_get (ps : List (String × String)) (k : String) :
    Option String :=
  (ps.reverse.find? (fun kv => kv.1 == k)).map (fun kv => kv.2)

/-- Amended reading for claim C10: lookup matches the name
case-insensitively and returns the value written by the last
(case-insensitively) matching parameter occurrence. -/
def last_write_get (ps : List (String × String)) (k : String) : Option String :=
  (ps.reverse.find? (fun kv => strcaseeq kv.1 k)).map (fun kv => kv.2)

/-! ## Proof infrastructure: encoder invariants -/

/-- Facts about an encoder state that show the two header bytes survive
encoding: the cursor sits at or after the header's last byte (and past it as
soon as any bit was written), inside a buffer of accurate length. -/
def EncoderSane (e : GsetEncoder) : Prop :=
  1 ≤ e.offset ∧ e.offset < e.datalen ∧ e.data.length = e.datalen
    ∧ (2 ≤ e.offset ∨ e.bit = 8)

/-- Representation invariant of the bit encoder: the buffer holds the 2-byte
header, then the bits emitted so far packed most-significant-bit-first (the
final partial byte one-padded), then untouched zeros; `offset` points at the
last written byte and `bit` at the last written bit within it. -/
def EncRepr (hdr : List Nat) (bs : List Bool) (e : GsetEncoder) : Prop :=
  e.data = hdr ++ packBitsMSB bs ++ List.replicate (e.datalen - (e.offset + 1)) 0
    ∧ e.offset + 1 = hdr.length + (packBitsMSB bs).length
    ∧ e.offset < e.datalen
    ∧ e.data.length = e.datalen
    ∧ hdr.length = 2
    ∧ e.bit = (if bs.length = 0 then 8
               else if bs.length % 8 = 0 then 7 else bs.length % 8 - 1)

/-- The bit sequence `gset_encode_next` emits for value `v` from a state
with remainder width `fb` and previous value `last`. -/
def nextBits (fb last v : Nat) : List Bool :=
  golombBits fb ((v + 2 ^ 64 - last) % 2 ^ 64)

/-! ## Concrete fixtures used by witnesses -/

/-- An empty diary of capacity 2 with the APR hash algorithm. -/
def diaryW : Diary :=
  { entries := [], N := 2, NMax := 2, mask_bits := 64,
    dtype := .aprHash, authority := none }

/-- A push candidate for a fixed origin with a chosen path. -/
def pushW (path : String) : Push :=
  { method := "GET", scheme := "https", authority := "example.com",
    path := path, critical := false }

/-- A request fixture for the builder claims. -/
def reqW : Req :=
  { scheme := "https", authority := "example.com", headers := [] }

/-- A diary bound to authority `a.com` with a few entries. -/
def diaryAuthW : Diary :=
  { entries := [5, 17, 900719925474099], N := 256, NMax := 256, mask_bits := 64,
    dtype := .aprHash, authority := some "a.com" }

/-! ## Lemmas about the diary operations -/

theorem diary_find_none_iff (l : List Nat) (h : Nat) :
    diary_find l h = none ↔ h ∉ l := by
  induction l with
  | nil => simp [diary_find]
  | cons x xs ih =>
    simp only [diary_find, List.mem_cons]
    cases hf : diary_find xs h with
    | some j =>
      have hmem : h ∈ xs := by
        by_contra hn
        rw [ih.mpr hn] at hf
        exact Option.noConfusion hf
      simp [hmem]
    | none =>
      have hx : h ∉ xs := ih.mp hf
      by_cases hxh : x = h
      · simp [hxh, hx]
      · simp only [if_neg hxh]
        simp [hx]
        exact fun hh => hxh hh.symm

theorem move_to_last_length (l : List Nat) (i : Nat) :
    (move_to_last l i).length = l.length := by
  unfold move_to_last
  split
  · rename_i hlt
    have hi : i < l.length := by omega
    rw [List.length_append, List.length_eraseIdx]
    rw [if_pos hi]
    simp
    omega
  · rfl

theorem evictFuel_of_lt (fuel n : Nat) (l : List Nat) (h : l.length < n) :
    evictFuel fuel n l = l := by
  cases fuel with
  | zero => rfl
  | succ m => simp only [evictFuel, if_neg (by omega : ¬ n ≤ l.length)]

theorem evict_of_lt (n : Nat) (l : List Nat) (h : l.length < n) :
    evict n l = l :=
  evictFuel_of_lt _ _ _ h

theorem evictFuel_step (fuel n : Nat) (x : Nat) (xs : List Nat)
    (hc1 : n ≤ xs.length + 1) (hc2 : 0 < xs.length) :
    evictFuel (fuel + 1) n (x :: xs) = evictFuel fuel n xs := by
  simp only [evictFuel, List.length_cons]
  rw [if_pos (by omega), if_pos (by omega)]
  rfl

theorem evict_at_cap (n : Nat) (l : List Nat) (h2 : 2 ≤ n)
    (hl : l.length = n) : evict n l = l.tail := by
  unfold evict
  cases l with
  | nil => simp at hl; omega
  | cons x xs =>
    have hxs : xs.length + 1 = n := by simpa using hl
    show evictFuel (x :: xs).length n (x :: xs) = xs
    rw [List.length_cons, evictFuel_step xs.length n x xs (by omega) (by omega)]
    exact evictFuel_of_lt _ _ _ (by omega)

theorem evict_length_lt (n : Nat) (l : List Nat) (h2 : 2 ≤ n)
    (hl : l.length ≤ n) : (evict n l).length < n := by
  rcases Nat.lt_or_ge l.length n with h | h
  · rw [evict_of_lt n l h]; exact h
  · have heq : l.length = n := Nat.le_antisymm hl h
    rw [evict_at_cap n l h2 heq, List.length_tail]
    omega

theorem mem_of_mem_evictFuel (fuel n : Nat) (l : List Nat) (x : Nat)
    (hx : x ∈ evictFuel fuel n l) : x ∈ l := by
  induction fuel generalizing l with
  | zero => exact hx
  | succ m ih =>
    unfold evictFuel at hx
    split at hx
    · split at hx
      · exact List.mem_of_mem_tail (ih l.tail hx)
      · exact hx
    · exact hx

theorem mem_of_mem_evict (n : Nat) (l : List Nat) (x : Nat)
    (hx : x ∈ evict n l) : x ∈ l :=
  mem_of_mem_evictFuel _ _ _ _ hx

theorem diary_update_one_eq_found (d : Diary) (p : Push) (idx : Nat)
    (hf : diary_find d.entries (dcalc d p) = some idx) :
    diary_update_one d p
      = ({ d with entries := move_to_last d.entries idx }, none) := by
  unfold diary_update_one
  rw [hf]

theorem diary_update_one_eq_new (d : Diary) (p : Push)
    (hf : diary_find d.entries (dcalc d p) = none) :
    diary_update_one d p = (h2_push_diary_append d (dcalc d p), some p) := by
  unfold diary_update_one
  rw [hf]

theorem diary_update_one_fields (d : Diary) (p : Push) :
    (diary_update_one d p).1.N = d.N
      ∧ (diary_update_one d p).1.dtype = d.dtype
      ∧ (diary_update_one d p).1.mask_bits = d.mask_bits
      ∧ (diary_update_one d p).1.authority = d.authority := by
  cases hf : diary_find d.entries (dcalc d p) with
  | some idx => rw [diary_update_one_eq_found d p idx hf]; exact ⟨rfl, rfl, rfl, rfl⟩
  | none => rw [diary_update_one_eq_new d p hf]; exact ⟨rfl, rfl, rfl, rfl⟩

theorem dcalc_ext (d d2 : Diary) (p q : Push) (ht : d2.dtype = d.dtype)
    (hm : d2.mask_bits = d.mask_bits) (hs : q.scheme = p.scheme)
    (ha : q.authority = p.authority) (hp : q.path = p.path) :
    dcalc d2 q = dcalc d p := by
  unfold dcalc
  rw [ht, hm, hs, ha, hp]

theorem diary_update_one_len (d : Diary) (p : Push) (h2 : 2 ≤ d.N)
    (hl : d.entries.length ≤ d.N) :
    (diary_update_one d p).1.entries.length ≤ d.N := by
  cases hf : diary_find d.entries (dcalc d p) with
  | some idx =>
    rw [diary_update_one_eq_found d p idx hf]
    simpa [move_to_last_length] using hl
  | none =>
    rw [diary_update_one_eq_new d p hf]
    have hev := evict_length_lt d.N d.entries h2 hl
    simp only [h2_push_diary_append, List.length_append, List.length_cons,
      List.length_nil]
    omega

theorem update_length_le (ps : List Push) (d : Diary) (h2 : 2 ≤ d.N)
    (hl : d.entries.length ≤ d.N) :
    (h2_push_diary_update d ps).1.entries.length ≤ d.N := by
  induction ps generalizing d with
  | nil => exact hl
  | cons p rest ih =>
    show (h2_push_diary_update (diary_update_one d p).1 rest).1.entries.length ≤ d.N
    have hN := (diary_update_one_fields d p).1
    have := ih (diary_update_one d p).1
      (by rw [hN]; exact h2)
      (by rw [hN]; exact diary_update_one_len d p h2 hl)
    rw [hN] at this
    exact this

theorem update_all_new (ps : List Push) (d : Diary)
    (hfresh : ∀ p ∈ ps, dcalc d p ∉ d.entries)
    (hnodup : (ps.map (dcalc d)).Nodup) :
    (h2_push_diary_update d ps).1.entries
        = (ps.map (dcalc d)).foldl (fun l h => evict d.N l ++ [h]) d.entries
      ∧ (h2_push_diary_update d ps).2 = ps := by
  induction ps generalizing d with
  | nil => exact ⟨rfl, rfl⟩
  | cons p rest ih =>
    rw [List.map_cons, List.nodup_cons] at hnodup
    have hpe : dcalc d p ∉ d.entries := hfresh p (List.mem_cons_self p rest)
    have hfind : diary_find d.entries (dcalc d p) = none :=
      (diary_find_none_iff _ _).mpr hpe
    have hstep := diary_update_one_eq_new d p hfind
    have hstep1 : (diary_update_one d p).1
        = h2_push_diary_append d (dcalc d p) := by rw [hstep]
    have hstep2 : (diary_update_one d p).2 = some p := by rw [hstep]
    have hdc : ∀ q : Push,
        dcalc (h2_push_diary_append d (dcalc d p)) q = dcalc d q :=
      fun q => dcalc_ext d _ q q rfl rfl rfl rfl rfl
    have hfresh2 : ∀ q ∈ rest,
        dcalc (h2_push_diary_append d (dcalc d p)) q
          ∉ (h2_push_diary_append d (dcalc d p)).entries := by
      intro q hq
      rw [hdc q]
      show dcalc d q ∉ evict d.N d.entries ++ [dcalc d p]
      simp only [List.mem_append, List.mem_singleton]
      rintro (hin | hin)
      · exact hfresh q (List.mem_cons_of_mem p hq) (mem_of_mem_evict _ _ _ hin)
      · exact hnodup.1 (hin ▸ List.mem_map_of_mem (dcalc d) hq)
    have hmapeq : rest.map (dcalc (h2_push_diary_append d (dcalc d p)))
        = rest.map (dcalc d) :=
      List.map_congr_left (fun q _ => hdc q)
    have hnodup2 :
        (rest.map (dcalc (h2_push_diary_append d (dcalc d p)))).Nodup := by
      rw [hmapeq]; exact hnodup.2
    obtain ⟨ha, hb⟩ := ih (h2_push_diary_append d (dcalc d p)) hfresh2 hnodup2
    constructor
    · show (h2_push_diary_update (diary_update_one d p).1 rest).1.entries = _
      rw [hstep1, ha, hmapeq, List.map_cons, List.foldl_cons]
      rfl
    · show (diary_update_one d p).2.toList
          ++ (h2_push_diary_update (diary_update_one d p).1 rest).2 = p :: rest
      rw [hstep2, hstep1, hb]
      rfl

theorem foldl_evict_append_of_le (n : Nat) (hs : List Nat)
    (hlen : hs.length ≤ n) :
    hs.foldl (fun l h => evict n l ++ [h]) [] = hs := by
  induction hs using List.reverseRecOn with
  | nil => rfl
  | append_singleton xs x ih =>
    rw [List.foldl_append]
    rw [ih (by simp at hlen; omega)]
    simp only [List.foldl_cons, List.foldl_nil]
    rw [evict_of_lt n xs (by simp at hlen; omega)]

/-! ## Claim theorems: push diary (C1, C2, C3) -/

/-- C1: starting from an empty diary of capacity at least 2, updating with a
candidate hashing to `h` and then updating again with a candidate of the
same `{scheme, authority, path}` triple leaves exactly one entry with hash
`h`, and the second update's returned sequence omits that candidate. -/
theorem diary_double_insert_dedup (d : Diary) (p q : Push)
    (hempty : d.entries = []) (hN : 2 ≤ d.N) (hs : q.scheme = p.scheme)
    (ha : q.authority = p.authority) (hp : q.path = p.path) :
    ((h2_push_diary_update (h2_push_diary_update d [p]).1 [q]).1.entries.count
        (dcalc d p) = 1)
      ∧ q ∉ (h2_push_diary_update (h2_push_diary_update d [p]).1 [q]).2 := by
  have hfind1 : diary_find d.entries (dcalc d p) = none := by
    rw [hempty]; rfl
  have h1 : h2_push_diary_update d [p]
      = (h2_push_diary_append d (dcalc d p), [p]) := by
    show ((h2_push_diary_update (diary_update_one d p).1 []).1,
        (diary_update_one d p).2.toList
          ++ (h2_push_diary_update (diary_update_one d p).1 []).2) = _
    unfold diary_update_one
    rw [hfind1]
    rfl
  have hent1 : (h2_push_diary_append d (dcalc d p)).entries = [dcalc d p] := by
    simp only [h2_push_diary_append, hempty]
    rw [evict_of_lt d.N [] (by simp; omega)]
    rfl
  have hdc : dcalc (h2_push_diary_append d (dcalc d p)) q = dcalc d p :=
    dcalc_ext d _ p q rfl rfl hs ha hp
  have hfind2 : diary_find (h2_push_diary_append d (dcalc d p)).entries
      (dcalc (h2_push_diary_append d (dcalc d p)) q) = some 0 := by
    rw [hdc, hent1]
    simp [diary_find]
  have h2 : h2_push_diary_update (h2_push_diary_append d (dcalc d p)) [q]
      = ({ h2_push_diary_append d (dcalc d p) with
            entries := move_to_last
              (h2_push_diary_append d (dcalc d p)).entries 0 }, []) := by
    show ((h2_push_diary_update
        (diary_update_one (h2_push_diary_append d (dcalc d p)) q).1 []).1,
        (diary_update_one (h2_push_diary_append d (dcalc d p)) q).2.toList
          ++ _) = _
    unfold diary_update_one
    rw [hfind2]
    rfl
  rw [h1, h2]
  have hmv : move_to_last (h2_push_diary_append d (dcalc d p)).entries 0
      = [dcalc d p] := by
    rw [hent1]
    rfl
  constructor
  · simp [hmv]
  · simp

/-- C2: inserting `N + 1` candidates with pairwise-distinct hashes into an
empty diary of capacity `N` (a power of two, at least 2) leaves exactly `N`
entries, and the first-inserted candidate's hash is no longer present. -/
theorem diary_eviction_oldest (d : Diary) (ps : List Push)
    (hempty : d.entries = []) (hpow : ∃ k, d.N = 2 ^ k) (hN : 2 ≤ d.N)
    (hlen : ps.length = d.N + 1) (hnodup : (ps.map (dcalc d)).Nodup) :
    (h2_push_diary_update d ps).1.entries.length = d.N
      ∧ ∀ p0, ps.head? = some p0
          → dcalc d p0 ∉ (h2_push_diary_update d ps).1.entries := by
  have hfresh : ∀ p ∈ ps, dcalc d p ∉ d.entries := by
    rw [hempty]; intro p _; exact List.not_mem_nil _
  obtain ⟨hent, -⟩ := update_all_new ps d hfresh hnodup
  rw [hempty] at hent
  have hhslen : (ps.map (dcalc d)).length = d.N + 1 := by
    simp [hlen]
  rcases List.eq_nil_or_concat (ps.map (dcalc d)) with hnil | ⟨t, z, htz⟩
  · rw [hnil] at hhslen; simp at hhslen
  · rw [List.concat_eq_append] at htz
    have htlen : t.length = d.N := by
      rw [htz] at hhslen
      simp at hhslen
      omega
    rw [htz, List.foldl_append] at hent
    rw [foldl_evict_append_of_le d.N t (Nat.le_of_eq htlen)] at hent
    simp only [List.foldl_cons, List.foldl_nil] at hent
    rw [evict_at_cap d.N t hN htlen] at hent
    obtain ⟨t0, t', rfl⟩ : ∃ t0 t', t = t0 :: t' := by
      cases t with
      | nil => simp at htlen; omega
      | cons a b => exact ⟨a, b, rfl⟩
    have hnodup2 : t0 ∉ t' ++ [z] := by
      rw [htz] at hnodup
      exact (List.nodup_cons.mp hnodup).1
    constructor
    · rw [hent]
      simp only [List.tail_cons, List.length_append, List.length_cons,
        List.length_nil]
      simp at htlen
      omega
    · intro p0 hp0
      have hh : (ps.map (dcalc d)).head? = some (dcalc d p0) := by
        rw [List.head?_map, hp0]
        rfl
      rw [htz] at hh
      simp at hh
      rw [hent, List.tail_cons, ← hh]
      exact hnodup2

/-- C3: the number of stored entries never exceeds the capacity `N`: it is
preserved by `update` with any candidate list; a digest export leaves the
diary unchanged; and an insertion hitting the capacity removes the oldest
(lowest-index) entry before appending. -/
theorem diary_capacity_invariant (d : Diary) (ps : List Push) (maxP : Nat)
    (auth : Option String) (e : Nat) (hN : 2 ≤ d.N)
    (hl : d.entries.length ≤ d.N) :
    (h2_push_diary_update d ps).1.entries.length ≤ d.N
      ∧ (h2_push_diary_digest_get d maxP auth).diary = d
      ∧ (d.entries.length = d.N
          → (h2_push_diary_append d e).entries = d.entries.tail ++ [e]) := by
  refine ⟨update_length_le ps d hN hl, rfl, fun hcap => ?_⟩
  simp only [h2_push_diary_append]
  rw [evict_at_cap d.N d.entries hN hcap]

/-- Witness for the C1 theorem at a concrete empty diary of capacity 2. -/
theorem diary_double_insert_dedup_witness :
    ((h2_push_diary_update (h2_push_diary_update diaryW [pushW "/style.css"]).1
        [pushW "/style.css"]).1.entries.count (dcalc diaryW (pushW "/style.css")) = 1)
      ∧ pushW "/style.css" ∉ (h2_push_diary_update (h2_push_diary_update diaryW
          [pushW "/style.css"]).1 [pushW "/style.css"]).2 :=
  diary_double_insert_dedup diaryW (pushW "/style.css") (pushW "/style.css")
    rfl (by decide) rfl rfl rfl

/-- Witness for the C2 theorem: three distinct candidates into capacity 2. -/
theorem diary_eviction_oldest_witness :
    (h2_push_diary_update diaryW [pushW "/a", pushW "/b", pushW "/c"]).1.entries.length
        = diaryW.N
      ∧ ∀ p0, [pushW "/a", pushW "/b", pushW "/c"].head? = some p0
          → dcalc diaryW p0
              ∉ (h2_push_diary_update diaryW
                  [pushW "/a", pushW "/b", pushW "/c"]).1.entries :=
  diary_eviction_oldest diaryW [pushW "/a", pushW "/b", pushW "/c"]
    rfl ⟨1, by decide⟩ (by decide) (by decide) (by decide)

/-- Witness for the C3 theorem at a concrete diary. -/
theorem diary_capacity_invariant_witness :
    (h2_push_diary_update diaryW [pushW "/a"]).1.entries.length ≤ diaryW.N
      ∧ (h2_push_diary_digest_get diaryW 256 none).diary = diaryW
      ∧ (diaryW.entries.length = diaryW.N
          → (h2_push_diary_append diaryW 7).entries = diaryW.entries.tail ++ [7]) :=
  diary_capacity_invariant diaryW [pushW "/a"] 256 none 7 (by decide) (by decide)

/-! ## Claim theorems: SHA-256 hash truncation (C4) -/

theorem foldl_mul_add_mod (bs : List Nat) (v : Nat) :
    bs.foldl (fun a b => (a * 256 + b) % 2 ^ 64) (v % 2 ^ 64)
      = (bs.foldl (fun a b => a * 256 + b) v) % 2 ^ 64 := by
  induction bs generalizing v with
  | nil => rfl
  | cons b t ih =>
    simp only [List.foldl_cons]
    have hmod : ((v % 2 ^ 64) * 256 + b) % 2 ^ 64 = (v * 256 + b) % 2 ^ 64 :=
      ((Nat.mod_modEq v (2 ^ 64)).mul_right 256).add_right b
    rw [hmod]
    exact ih (v * 256 + b)

set_option maxRecDepth 100000 in
/-- C4 counterexample: for the candidate `https://example.com/index.html`
with 64 mask bits, the stored hash is not the highest-order 64 bits of the
SHA-256 digest (the code folds the whole 32-byte digest through a 64-bit
register, keeping the digest's lowest-order 8 bytes instead). -/
theorem sha256_stored_hash_counterexample :
    calc_sha256_hash 64 "https" "example.com" "/index.html"
      ≠ spec_sha256_hash 64 "https" "example.com" "/index.html" := by
  decide

/-- C4 amended: the stored hash equals the highest-order `mask_bits` bits of
the low-order 64 bits (the last 8 bytes) of the SHA-256 digest of
`scheme || "://" || authority || path`. -/
theorem sha256_stored_hash_eq_low64 (mask_bits : Nat)
    (scheme authority path : String) :
    calc_sha256_hash mask_bits scheme authority path
      = amended_sha256_hash mask_bits scheme authority path := by
  simp only [calc_sha256_hash, amended_sha256_hash]
  have h := foldl_mul_add_mod
    (sha256 (strBytes scheme ++ strBytes "://"
      ++ strBytes authority ++ strBytes path)) 0
  rw [Nat.zero_mod] at h
  rw [h]

/-! ## Claim theorems: digest export (C5, C6, C7) -/

theorem take_two_header (x y : Nat) :
    ((((List.replicate 512 (0 : Nat)).set 0 x).set 1 y).take 2) = [x, y] := rfl

theorem digest_encoder_init_take_two (d : Diary) (maxP : Nat) :
    (digest_encoder_init d maxP).data.take 2
      = [h2_log2 (ceil_power_of_2 d.entries.length),
         min (d.mask_bits - h2_log2 (ceil_power_of_2 d.entries.length))
           (h2_log2 (ceil_power_of_2 maxP))] :=
  take_two_header _ _

theorem digest_encoder_init_sane (d : Diary) (maxP : Nat) :
    EncoderSane (digest_encoder_init d maxP) := by
  refine ⟨Nat.le_refl 1, by show (1 : Nat) < 512; omega, ?_, Or.inr rfl⟩
  show ((((List.replicate 512 (0 : Nat)).set 0 _).set 1 _).length) = 512
  rw [List.length_set, List.length_set, List.length_replicate]

theorem digest_get_eq_encode (d : Diary) (maxP : Nat) (auth : Option String)
    (h : digest_authority_match d auth = true) :
    h2_push_diary_digest_get d maxP auth
      = { status := APR_SUCCESS
          bytes := (encode_hashes (digest_encoder_init d maxP)
              (sortAsc (d.entries.map
                (fun x => x >>> (digest_encoder_init d maxP).delta_bits)))).data.take
            ((encode_hashes (digest_encoder_init d maxP)
              (sortAsc (d.entries.map
                (fun x => x >>> (digest_encoder_init d maxP).delta_bits)))).offset + 1)
          diary := d } := by
  simp only [h2_push_diary_digest_get]
  rw [if_pos h]

theorem digest_get_eq_skip (d : Diary) (maxP : Nat) (auth : Option String)
    (h : digest_authority_match d auth = false) :
    h2_push_diary_digest_get d maxP auth
      = { status := APR_SUCCESS
          bytes := (digest_encoder_init d maxP).data.take 2
          diary := d } := by
  simp only [h2_push_diary_digest_get]
  rw [if_neg (by simp [h])]
  rfl

/-- C7: digest export against a different, non-wildcard authority returns
exactly the 2-byte header, reports success, and leaves the diary unchanged. -/
theorem digest_mismatched_authority (d : Diary) (maxP : Nat) (a da : String)
    (hda : d.authority = some da) (hne : a ≠ "*") (hne2 : da ≠ a) :
    (h2_push_diary_digest_get d maxP (some a)).status = APR_SUCCESS
      ∧ (h2_push_diary_digest_get d maxP (some a)).bytes
          = [h2_log2 (ceil_power_of_2 d.entries.length),
             min (d.mask_bits - h2_log2 (ceil_power_of_2 d.entries.length))
               (h2_log2 (ceil_power_of_2 maxP))]
      ∧ (h2_push_diary_digest_get d maxP (some a)).diary = d := by
  have hmatch : digest_authority_match d (some a) = false := by
    unfold digest_authority_match
    rw [hda]
    show (a == "*" || da == a) = false
    have hb1 : (a == "*") = false := by simp [hne]
    have hb2 : (da == a) = false := by simp [hne2]
    rw [hb1, hb2]
    rfl
  rw [digest_get_eq_skip d maxP (some a) hmatch]
  exact ⟨rfl, digest_encoder_init_take_two d maxP, rfl⟩

/-- Witness for the C7 theorem: export scoped to `b.com` from a diary bound
to `a.com`. -/
theorem digest_mismatched_authority_witness :
    (h2_push_diary_digest_get diaryAuthW 256 (some "b.com")).status = APR_SUCCESS
      ∧ (h2_push_diary_digest_get diaryAuthW 256 (some "b.com")).bytes
          = [h2_log2 (ceil_power_of_2 diaryAuthW.entries.length),
             min (diaryAuthW.mask_bits
                    - h2_log2 (ceil_power_of_2 diaryAuthW.entries.length))
               (h2_log2 (ceil_power_of_2 256))]
      ∧ (h2_push_diary_digest_get diaryAuthW 256 (some "b.com")).diary = diaryAuthW :=
  digest_mismatched_authority diaryAuthW 256 "b.com" "a.com" rfl (by decide)
    (by decide)

/-! ## Encoder case equations and byte-level lemmas (for C5, C6) -/

theorem gset_encode_bit_mid_true (e : GsetEncoder) (hbit : ¬ 8 ≤ e.bit + 1) :
    gset_encode_bit e true = { e with bit := e.bit + 1 } := by
  simp only [gset_encode_bit]
  rw [if_neg hbit]
  rfl

theorem gset_encode_bit_mid_false (e : GsetEncoder) (hbit : ¬ 8 ≤ e.bit + 1) :
    gset_encode_bit e false
      = { e with
          bit := e.bit + 1
          data := e.data.set e.offset
            ((e.data.getD e.offset 0) &&& (255 ^^^ cbit_mask.getD (e.bit + 1) 0)) } := by
  simp only [gset_encode_bit]
  rw [if_neg hbit]
  rfl

theorem gset_encode_bit_new_true (e : GsetEncoder) (hbit : 8 ≤ e.bit + 1)
    (hgrow : ¬ e.datalen ≤ e.offset + 1) :
    gset_encode_bit e true
      = { e with
          offset := e.offset + 1
          bit := 0
          data := e.data.set (e.offset + 1) 255 } := by
  simp only [gset_encode_bit]
  rw [if_pos hbit, if_neg hgrow]
  rfl

theorem gset_encode_bit_new_false (e : GsetEncoder) (hbit : 8 ≤ e.bit + 1)
    (hgrow : ¬ e.datalen ≤ e.offset + 1) :
    gset_encode_bit e false
      = { e with
          offset := e.offset + 1
          bit := 0
          data := (e.data.set (e.offset + 1) 255).set (e.offset + 1)
            (((e.data.set (e.offset + 1) 255).getD (e.offset + 1) 0)
              &&& (255 ^^^ cbit_mask.getD 0 0)) } := by
  simp only [gset_encode_bit]
  rw [if_pos hbit, if_neg hgrow]
  rfl

theorem gset_encode_bit_grow_true (e : GsetEncoder) (hbit : 8 ≤ e.bit + 1)
    (hgrow : e.datalen ≤ e.offset + 1) :
    gset_encode_bit e true
      = { e with
          offset := e.offset + 1
          bit := 0
          datalen := e.datalen * 2
          data := (e.data ++ List.replicate e.datalen 0).set (e.offset + 1) 255 } := by
  simp only [gset_encode_bit]
  rw [if_pos hbit, if_pos hgrow]
  rfl

theorem gset_encode_bit_grow_false (e : GsetEncoder) (hbit : 8 ≤ e.bit + 1)
    (hgrow : e.datalen ≤ e.offset + 1) :
    gset_encode_bit e false
      = { e with
          offset := e.offset + 1
          bit := 0
          datalen := e.datalen * 2
          data := (((e.data ++ List.replicate e.datalen 0).set (e.offset + 1) 255).set
            (e.offset + 1)
            ((((e.data ++ List.replicate e.datalen 0).set (e.offset + 1) 255).getD
                (e.offset + 1) 0)
              &&& (255 ^^^ cbit_mask.getD 0 0))) } := by
  simp only [gset_encode_bit]
  rw [if_pos hbit, if_pos hgrow]
  rfl

theorem gset_encode_bit_fields (e : GsetEncoder) (b : Bool) :
    (gset_encode_bit e b).fixed_bits = e.fixed_bits
      ∧ (gset_encode_bit e b).last = e.last
      ∧ (gset_encode_bit e b).log2p = e.log2p := by
  by_cases hbit : 8 ≤ e.bit + 1
  · by_cases hgrow : e.datalen ≤ e.offset + 1
    · cases b
      · rw [gset_encode_bit_grow_false e hbit hgrow]; exact ⟨rfl, rfl, rfl⟩
      · rw [gset_encode_bit_grow_true e hbit hgrow]; exact ⟨rfl, rfl, rfl⟩
    · cases b
      · rw [gset_encode_bit_new_false e hbit hgrow]; exact ⟨rfl, rfl, rfl⟩
      · rw [gset_encode_bit_new_true e hbit hgrow]; exact ⟨rfl, rfl, rfl⟩
  · cases b
    · rw [gset_encode_bit_mid_false e hbit]; exact ⟨rfl, rfl, rfl⟩
    · rw [gset_encode_bit_mid_true e hbit]; exact ⟨rfl, rfl, rfl⟩

theorem set_append_mid (A : List Nat) (x v : Nat) (B : List Nat) :
    (A ++ x :: B).set A.length v = A ++ v :: B := by
  induction A with
  | nil => rfl
  | cons a A ih => simp [List.set, ih]

theorem getD_append_mid (A : List Nat) (x : Nat) (B : List Nat) (d : Nat) :
    (A ++ x :: B).getD A.length d = x := by
  induction A with
  | nil => rfl
  | cons a A ih => simpa using ih

theorem take_two_set_ge (l : List Nat) (i v : Nat) (h : 2 ≤ i) :
    (l.set i v).take 2 = l.take 2 := by
  cases l with
  | nil => rfl
  | cons a t =>
    cases t with
    | nil =>
      cases i with
      | zero => omega
      | succ j => rfl
    | cons b rest =>
      obtain ⟨j, rfl⟩ : ∃ j, i = j + 2 := ⟨i - 2, by omega⟩
      rfl

theorem bitsVal_aux (ys : List Bool) (a : Nat) :
    ys.foldl (fun a b => 2 * a + (if b then 1 else 0)) a
      = a * 2 ^ ys.length + bitsVal ys := by
  induction ys generalizing a with
  | nil => simp [bitsVal]
  | cons y t ih =>
    simp only [List.foldl_cons, List.length_cons]
    rw [ih]
    have hbt : bitsVal (y :: t) = (if y then 1 else 0) * 2 ^ t.length + bitsVal t := by
      show List.foldl _ (2 * 0 + (if y then 1 else 0)) t = _
      rw [ih]
      ring_nf
    rw [hbt]
    ring

theorem bitsVal_append (xs ys : List Bool) :
    bitsVal (xs ++ ys) = bitsVal xs * 2 ^ ys.length + bitsVal ys := by
  unfold bitsVal
  rw [List.foldl_append]
  exact bitsVal_aux ys _

theorem bitsVal_replicate_true (m : Nat) :
    bitsVal (List.replicate m true) = 2 ^ m - 1 := by
  induction m with
  | zero => rfl
  | succ k ih =>
    rw [List.replicate_succ]
    show List.foldl _ (2 * 0 + 1) (List.replicate k true) = _
    rw [bitsVal_aux, ih, List.length_replicate]
    have h1 : 1 ≤ 2 ^ k := Nat.one_le_two_pow
    rw [pow_succ]
    omega

theorem bitsVal_lt (bs : List Bool) : bitsVal bs < 2 ^ bs.length := by
  induction bs with
  | nil => simp [bitsVal]
  | cons b t ih =>
    show List.foldl _ (2 * 0 + (if b then 1 else 0)) t < _
    rw [bitsVal_aux]
    have hb : (if b then 1 else 0) ≤ 1 := by cases b <;> simp
    have h2 : (2 * 0 + (if b then 1 else 0)) * 2 ^ t.length ≤ 2 ^ t.length := by
      cases b <;> simp
    rw [List.length_cons, pow_succ]
    omega

theorem byte_clear_mask : ∀ r, r < 8 → ∀ a, a < 2 ^ r →
    (a * 2 ^ (8 - r) + (2 ^ (8 - r) - 1)) &&& (255 ^^^ cbit_mask.getD r 0)
      = a * 2 ^ (8 - r) + (2 ^ (7 - r) - 1) := by
  decide

theorem byteOfBits_eq (p : List Bool) :
    byteOfBits p = bitsVal p * 2 ^ (8 - p.length) + (2 ^ (8 - p.length) - 1) := by
  unfold byteOfBits
  rw [bitsVal_append, bitsVal_replicate_true, List.length_replicate]

theorem byteOfBits_snoc_true (p : List Bool) (h : p.length < 8) :
    byteOfBits (p ++ [true]) = byteOfBits p := by
  unfold byteOfBits
  rw [List.append_assoc]
  congr 1
  rw [List.length_append, List.length_cons, List.length_nil]
  rw [show 8 - (p.length + 0 + 1) = 7 - p.length by omega]
  rw [show 8 - p.length = (7 - p.length) + 1 by omega]
  rw [List.replicate_succ]
  rfl

theorem byteOfBits_snoc_false (p : List Bool) (h : p.length < 8) :
    byteOfBits (p ++ [false])
      = byteOfBits p &&& (255 ^^^ cbit_mask.getD p.length 0) := by
  have hb := bitsVal_lt p
  have hmask := byte_clear_mask p.length h (bitsVal p) hb
  have h2 : byteOfBits (p ++ [false])
      = bitsVal p * 2 ^ (8 - p.length) + (2 ^ (7 - p.length) - 1) := by
    rw [byteOfBits_eq, bitsVal_append]
    simp only [List.length_append, List.length_cons, List.length_nil]
    rw [show 8 - (p.length + (0 + 1)) = 7 - p.length by omega]
    have hfv : bitsVal [false] = 0 := rfl
    rw [hfv]
    have hp2 : 2 ^ (8 - p.length) = 2 ^ (7 - p.length) * 2 := by
      rw [show 8 - p.length = (7 - p.length) + 1 by omega, pow_succ]
    rw [hp2]
    ring
  rw [h2, byteOfBits_eq, hmask]

theorem pack_single (p : List Bool) (hne : p ≠ []) (hle : p.length ≤ 8) :
    packBitsMSB p = [byteOfBits p] := by
  match p with
  | [] => exact absurd rfl hne
  | [b0] => rfl
  | [b0, b1] => rfl
  | [b0, b1, b2] => rfl
  | [b0, b1, b2, b3] => rfl
  | [b0, b1, b2, b3, b4] => rfl
  | [b0, b1, b2, b3, b4, b5] => rfl
  | [b0, b1, b2, b3, b4, b5, b6] => rfl
  | [b0, b1, b2, b3, b4, b5, b6, b7] => rfl
  | b0 :: b1 :: b2 :: b3 :: b4 :: b5 :: b6 :: b7 :: b8 :: rest =>
    exfalso
    simp only [List.length_cons] at hle
    omega

theorem pack_chunks_mul (n : Nat) : ∀ cs ps : List Bool, cs.length = 8 * n →
    packBitsMSB (cs ++ ps) = packBitsMSB cs ++ packBitsMSB ps := by
  induction n with
  | zero =>
    intro cs ps h
    have hnil : cs = [] := List.eq_nil_of_length_eq_zero (by omega)
    subst hnil
    rfl
  | succ m ih =>
    intro cs ps h
    rcases cs with _ | ⟨b0, _ | ⟨b1, _ | ⟨b2, _ | ⟨b3, _ | ⟨b4, _ | ⟨b5,
      _ | ⟨b6, _ | ⟨b7, rest⟩⟩⟩⟩⟩⟩⟩⟩
    all_goals try (exfalso; simp only [List.length_nil, List.length_cons] at h; omega)
    have hr : rest.length = 8 * m := by
      simp only [List.length_cons] at h
      omega
    have he1 : packBitsMSB ((b0 :: b1 :: b2 :: b3 :: b4 :: b5 :: b6 :: b7 :: rest) ++ ps)
        = byteOfBits [b0, b1, b2, b3, b4, b5, b6, b7] :: packBitsMSB (rest ++ ps) := rfl
    have he2 : packBitsMSB (b0 :: b1 :: b2 :: b3 :: b4 :: b5 :: b6 :: b7 :: rest)
        = byteOfBits [b0, b1, b2, b3, b4, b5, b6, b7] :: packBitsMSB rest := rfl
    rw [he1, he2, ih rest ps hr]
    rfl

theorem pack_chunks (cs ps : List Bool) (h : cs.length % 8 = 0) :
    packBitsMSB (cs ++ ps) = packBitsMSB cs ++ packBitsMSB ps :=
  pack_chunks_mul (cs.length / 8) cs ps (by omega)

theorem gset_encode_bit_sane (e : GsetEncoder) (b : Bool) (h : EncoderSane e) :
    EncoderSane (gset_encode_bit e b)
      ∧ (gset_encode_bit e b).data.take 2 = e.data.take 2 := by
  obtain ⟨h1, h2, h3, h4⟩ := h
  by_cases hbit : 8 ≤ e.bit + 1
  · by_cases hgrow : e.datalen ≤ e.offset + 1
    · cases b with
      | false =>
        rw [gset_encode_bit_grow_false e hbit hgrow]
        refine ⟨⟨?_, ?_, ?_, Or.inl ?_⟩, ?_⟩
        · show 1 ≤ e.offset + 1
          omega
        · show e.offset + 1 < e.datalen * 2
          omega
        · show (((e.data ++ List.replicate e.datalen 0).set (e.offset + 1) 255).set
              (e.offset + 1) _).length = e.datalen * 2
          simp only [List.length_set, List.length_append, List.length_replicate]
          omega
        · show 2 ≤ e.offset + 1
          omega
        · show (((e.data ++ List.replicate e.datalen 0).set (e.offset + 1) 255).set
              (e.offset + 1) _).take 2 = e.data.take 2
          rw [take_two_set_ge _ _ _ (by omega), take_two_set_ge _ _ _ (by omega)]
          exact List.take_append_of_le_length (by omega)
      | true =>
        rw [gset_encode_bit_grow_true e hbit hgrow]
        refine ⟨⟨?_, ?_, ?_, Or.inl ?_⟩, ?_⟩
        · show 1 ≤ e.offset + 1
          omega
        · show e.offset + 1 < e.datalen * 2
          omega
        · show ((e.data ++ List.replicate e.datalen 0).set (e.offset + 1) 255).length
              = e.datalen * 2
          simp only [List.length_set, List.length_append, List.length_replicate]
          omega
        · show 2 ≤ e.offset + 1
          omega
        · show ((e.data ++ List.replicate e.datalen 0).set (e.offset + 1) 255).take 2
              = e.data.take 2
          rw [take_two_set_ge _ _ _ (by omega)]
          exact List.take_append_of_le_length (by omega)
    · cases b with
      | false =>
        rw [gset_encode_bit_new_false e hbit hgrow]
        refine ⟨⟨?_, ?_, ?_, Or.inl ?_⟩, ?_⟩
        · show 1 ≤ e.offset + 1
          omega
        · show e.offset + 1 < e.datalen
          omega
        · show ((e.data.set (e.offset + 1) 255).set (e.offset + 1) _).length = e.datalen
          simp only [List.length_set]
          exact h3
        · show 2 ≤ e.offset + 1
          omega
        · show ((e.data.set (e.offset + 1) 255).set (e.offset + 1) _).take 2
              = e.data.take 2
          rw [take_two_set_ge _ _ _ (by omega), take_two_set_ge _ _ _ (by omega)]
      | true =>
        rw [gset_encode_bit_new_true e hbit hgrow]
        refine ⟨⟨?_, ?_, ?_, Or.inl ?_⟩, ?_⟩
        · show 1 ≤ e.offset + 1
          omega
        · show e.offset + 1 < e.datalen
          omega
        · show (e.data.set (e.offset + 1) 255).length = e.datalen
          simp only [List.length_set]
          exact h3
        · show 2 ≤ e.offset + 1
          omega
        · show (e.data.set (e.offset + 1) 255).take 2 = e.data.take 2
          exact take_two_set_ge _ _ _ (by omega)
  · have hoff2 : 2 ≤ e.offset := by
      rcases h4 with h4 | h4
      · exact h4
      · omega
    cases b with
    | false =>
      rw [gset_encode_bit_mid_false e hbit]
      refine ⟨⟨h1, h2, ?_, Or.inl hoff2⟩, ?_⟩
      · show (e.data.set e.offset _).length = e.datalen
        simp only [List.length_set]
        exact h3
      · show (e.data.set e.offset _).take 2 = e.data.take 2
        exact take_two_set_ge _ _ _ hoff2
    | true =>
      rw [gset_encode_bit_mid_true e hbit]
      exact ⟨⟨h1, h2, h3, Or.inl hoff2⟩, rfl⟩

theorem encoder_sane_foldl (xs : List Bool) (e : GsetEncoder) (h : EncoderSane e) :
    EncoderSane (xs.foldl gset_encode_bit e)
      ∧ (xs.foldl gset_encode_bit e).data.take 2 = e.data.take 2 := by
  induction xs generalizing e with
  | nil => exact ⟨h, rfl⟩
  | cons b t ih =>
    simp only [List.foldl_cons]
    obtain ⟨hs, ht⟩ := gset_encode_bit_sane e b h
    obtain ⟨hs2, ht2⟩ := ih (gset_encode_bit e b) hs
    exact ⟨hs2, ht2.trans ht⟩

theorem encodeOnes_eq_foldl (n : Nat) (e : GsetEncoder) :
    encodeOnes e n = (List.replicate n true).foldl gset_encode_bit e := by
  induction n generalizing e with
  | zero => rfl
  | succ k ih =>
    simp only [encodeOnes, List.replicate_succ, List.foldl_cons]
    exact ih (gset_encode_bit e true)

theorem encodeFixed_eq_foldl (e : GsetEncoder) (x : Nat) :
    encodeFixed e x = ((List.range e.fixed_bits).reverse.map
        (fun i => ((x >>> i) &&& 1) == 1)).foldl gset_encode_bit e := by
  unfold encodeFixed
  rw [List.foldl_map]

theorem encodeOnes_fields (n : Nat) (e : GsetEncoder) :
    (encodeOnes e n).fixed_bits = e.fixed_bits
      ∧ (encodeOnes e n).last = e.last := by
  induction n generalizing e with
  | zero => exact ⟨rfl, rfl⟩
  | succ k ih =>
    simp only [encodeOnes]
    obtain ⟨hf, hl⟩ := ih (gset_encode_bit e true)
    obtain ⟨hf2, hl2, -⟩ := gset_encode_bit_fields e true
    exact ⟨hf.trans hf2, hl.trans hl2⟩

theorem gset_encode_next_eq_foldl (e : GsetEncoder) (v : Nat) :
    gset_encode_next e v
      = (nextBits e.fixed_bits e.last v).foldl gset_encode_bit
          { e with last := v } := by
  unfold gset_encode_next nextBits golombBits
  rw [List.foldl_append, List.foldl_append]
  simp only [List.foldl_cons, List.foldl_nil]
  have he1 : ({ e with last := v } : GsetEncoder).fixed_bits = e.fixed_bits := rfl
  rw [encodeOnes_eq_foldl]
  rw [encodeFixed_eq_foldl]
  obtain ⟨hf, -⟩ := encodeOnes_fields
    (((v + 2 ^ 64 - e.last) % 2 ^ 64) >>> e.fixed_bits) { e with last := v }
  obtain ⟨hf2, -, -⟩ := gset_encode_bit_fields
    (encodeOnes { e with last := v }
      (((v + 2 ^ 64 - e.last) % 2 ^ 64) >>> e.fixed_bits)) false
  rw [encodeOnes_eq_foldl] at hf2 hf
  rw [hf2, hf, he1]

theorem foldl_bits_fields (xs : List Bool) (e : GsetEncoder) :
    (xs.foldl gset_encode_bit e).fixed_bits = e.fixed_bits
      ∧ (xs.foldl gset_encode_bit e).last = e.last := by
  induction xs generalizing e with
  | nil => exact ⟨rfl, rfl⟩
  | cons b t ih =>
    simp only [List.foldl_cons]
    obtain ⟨hf, hl⟩ := ih (gset_encode_bit e b)
    obtain ⟨hf2, hl2, -⟩ := gset_encode_bit_fields e b
    exact ⟨hf.trans hf2, hl.trans hl2⟩

theorem gset_encode_next_fields (e : GsetEncoder) (v : Nat) :
    (gset_encode_next e v).fixed_bits = e.fixed_bits
      ∧ (gset_encode_next e v).last = v := by
  rw [gset_encode_next_eq_foldl]
  obtain ⟨hf, hl⟩ := foldl_bits_fields (nextBits e.fixed_bits e.last v)
    { e with last := v }
  exact ⟨hf, hl⟩

theorem gset_encode_next_sane (e : GsetEncoder) (v : Nat) (h : EncoderSane e) :
    EncoderSane (gset_encode_next e v)
      ∧ (gset_encode_next e v).data.take 2 = e.data.take 2 := by
  rw [gset_encode_next_eq_foldl]
  exact encoder_sane_foldl _ { e with last := v } h

theorem encode_hashes_rest_sane (l : List Nat) (e : GsetEncoder) (prev : Nat)
    (h : EncoderSane e) :
    EncoderSane (encode_hashes_rest e prev l)
      ∧ (encode_hashes_rest e prev l).data.take 2 = e.data.take 2 := by
  induction l generalizing e prev with
  | nil => exact ⟨h, rfl⟩
  | cons x t ih =>
    simp only [encode_hashes_rest]
    by_cases hx : x = prev
    · rw [if_pos hx]
      exact ih e x h
    · rw [if_neg hx]
      obtain ⟨hs, ht⟩ := gset_encode_next_sane e x h
      obtain ⟨hs2, ht2⟩ := ih (gset_encode_next e x) x hs
      exact ⟨hs2, ht2.trans ht⟩

theorem encode_hashes_sane (l : List Nat) (e : GsetEncoder) (h : EncoderSane e) :
    EncoderSane (encode_hashes e l)
      ∧ (encode_hashes e l).data.take 2 = e.data.take 2 := by
  cases l with
  | nil => exact ⟨h, rfl⟩
  | cons x t =>
    simp only [encode_hashes]
    obtain ⟨hs, ht⟩ := gset_encode_next_sane e x h
    obtain ⟨hs2, ht2⟩ := encode_hashes_rest_sane t (gset_encode_next e x) x hs
    exact ⟨hs2, ht2.trans ht⟩

theorem sane_bytes (e : GsetEncoder) (h : EncoderSane e) :
    (e.data.take (e.offset + 1)).take 2 = e.data.take 2
      ∧ 2 ≤ (e.data.take (e.offset + 1)).length := by
  obtain ⟨h1, h2, h3, -⟩ := h
  constructor
  · rw [List.take_take]
    congr 1
    omega
  · rw [List.length_take]
    omega

/-- C5: for every diary and every `max_P`, the digest export's first byte
is `log2(ceil_pow2(n))` and its second byte is
`min(mask_bits - log2n, log2(ceil_pow2(max_P)))` (and at least the two
header bytes are returned).  The hypothesis keeps the `Nat` subtraction
faithful to the C `int` arithmetic. -/
theorem digest_header_bytes (d : Diary) (maxP : Nat) (auth : Option String)
    (_hlog : h2_log2 (ceil_power_of_2 d.entries.length) ≤ d.mask_bits) :
    (h2_push_diary_digest_get d maxP auth).bytes.take 2
        = [h2_log2 (ceil_power_of_2 d.entries.length),
           min (d.mask_bits - h2_log2 (ceil_power_of_2 d.entries.length))
             (h2_log2 (ceil_power_of_2 maxP))]
      ∧ 2 ≤ (h2_push_diary_digest_get d maxP auth).bytes.length := by
  cases hmatch : digest_authority_match d auth with
  | false =>
    rw [digest_get_eq_skip d maxP auth hmatch]
    refine ⟨?_, ?_⟩
    · show ((digest_encoder_init d maxP).data.take 2).take 2 = _
      rw [List.take_take]
      exact digest_encoder_init_take_two d maxP
    · show 2 ≤ ((digest_encoder_init d maxP).data.take 2).length
      have := digest_encoder_init_take_two d maxP
      rw [this]
      rfl
  | true =>
    rw [digest_get_eq_encode d maxP auth hmatch]
    obtain ⟨hs1, ht1⟩ := encode_hashes_sane
      (sortAsc (d.entries.map (fun x => x >>> (digest_encoder_init d maxP).delta_bits)))
      (digest_encoder_init d maxP) (digest_encoder_init_sane d maxP)
    obtain ⟨ha, hb⟩ := sane_bytes _ hs1
    refine ⟨?_, hb⟩
    rw [ha, ht1]
    exact digest_encoder_init_take_two d maxP

/-- Witness for the C5 theorem at a concrete diary and `max_P = 256`. -/
theorem digest_header_bytes_witness :
    (h2_push_diary_digest_get diaryAuthW 256 none).bytes.take 2
        = [h2_log2 (ceil_power_of_2 diaryAuthW.entries.length),
           min (diaryAuthW.mask_bits
                  - h2_log2 (ceil_power_of_2 diaryAuthW.entries.length))
             (h2_log2 (ceil_power_of_2 256))]
      ∧ 2 ≤ (h2_push_diary_digest_get diaryAuthW 256 none).bytes.length :=
  digest_header_bytes diaryAuthW 256 none (by decide)

theorem EncRepr_encode_bit (hdr : List Nat) (bs : List Bool) (e : GsetEncoder)
    (b : Bool) (h : EncRepr hdr bs e) :
    EncRepr hdr (bs ++ [b]) (gset_encode_bit e b) := by
  obtain ⟨hdata, hoff, hlt, hlen, hhdr, hbit⟩ := h
  have hlenbs : (bs ++ [b]).length = bs.length + 1 := by simp
  by_cases hk : bs.length % 8 = 0
  · have hbit8 : 8 ≤ e.bit + 1 := by
      rw [hbit]
      split_ifs <;> omega
    have hpack : packBitsMSB (bs ++ [b]) = packBitsMSB bs ++ [byteOfBits [b]] :=
      pack_chunks bs [b] hk
    have hplen1 : (packBitsMSB (bs ++ [b])).length = (packBitsMSB bs).length + 1 := by
      rw [hpack]
      simp
    have hAlen : (hdr ++ packBitsMSB bs).length = e.offset + 1 := by
      rw [List.length_append]
      omega
    have hbitgoal : (if (bs ++ [b]).length = 0 then 8
        else if (bs ++ [b]).length % 8 = 0 then 7
        else (bs ++ [b]).length % 8 - 1) = 0 := by
      rw [hlenbs]
      split_ifs <;> first
      | exact (by assumption : False).elim
      | omega
    by_cases hgrow : e.datalen ≤ e.offset + 1
    · have hoffeq : e.offset + 1 = e.datalen := by omega
      have hdataA : e.data = hdr ++ packBitsMSB bs := by
        rw [hdata, show e.datalen - (e.offset + 1) = 0 by omega]
        simp
      have hrepl : List.replicate e.datalen (0 : Nat)
          = 0 :: List.replicate (e.datalen - 1) 0 := by
        conv_lhs => rw [show e.datalen = (e.datalen - 1) + 1 by omega,
          List.replicate_succ]
      have hsetfresh : (e.data ++ List.replicate e.datalen 0).set (e.offset + 1) 255
          = (hdr ++ packBitsMSB bs) ++ 255 :: List.replicate (e.datalen - 1) 0 := by
        rw [hdataA, hrepl, ← hAlen]
        exact set_append_mid _ _ _ _
      cases b with
      | true =>
        rw [gset_encode_bit_grow_true e hbit8 hgrow]
        refine ⟨?_, ?_, ?_, ?_, hhdr, ?_⟩
        · show (e.data ++ List.replicate e.datalen 0).set (e.offset + 1) 255
            = hdr ++ packBitsMSB (bs ++ [true])
                ++ List.replicate (e.datalen * 2 - (e.offset + 1 + 1)) 0
          rw [hsetfresh, hpack,
            show byteOfBits [true] = 255 from rfl,
            show e.datalen * 2 - (e.offset + 1 + 1) = e.datalen - 1 by omega]
          simp [List.append_assoc]
        · show e.offset + 1 + 1 = hdr.length + (packBitsMSB (bs ++ [true])).length
          rw [hplen1]
          omega
        · show e.offset + 1 < e.datalen * 2
          omega
        · show ((e.data ++ List.replicate e.datalen 0).set (e.offset + 1) 255).length
            = e.datalen * 2
          rw [List.length_set, List.length_append, List.length_replicate]
          omega
        · exact hbitgoal.symm
      | false =>
        rw [gset_encode_bit_grow_false e hbit8 hgrow]
        have hget : ((e.data ++ List.replicate e.datalen 0).set
            (e.offset + 1) 255).getD (e.offset + 1) 0 = 255 := by
          rw [hsetfresh, ← hAlen]
          exact getD_append_mid _ _ _ _
        refine ⟨?_, ?_, ?_, ?_, hhdr, ?_⟩
        · show ((e.data ++ List.replicate e.datalen 0).set (e.offset + 1) 255).set
              (e.offset + 1)
              ((((e.data ++ List.replicate e.datalen 0).set (e.offset + 1) 255).getD
                  (e.offset + 1) 0) &&& (255 ^^^ cbit_mask.getD 0 0))
            = hdr ++ packBitsMSB (bs ++ [false])
                ++ List.replicate (e.datalen * 2 - (e.offset + 1 + 1)) 0
          rw [show e.datalen * 2 - (e.offset + 1 + 1) = e.datalen - 1 by omega,
            hget, hsetfresh, ← hAlen, set_append_mid, hpack,
            show (255 : Nat) &&& (255 ^^^ cbit_mask.getD 0 0) = 127 from rfl,
            show byteOfBits [false] = 127 from rfl]
          simp [List.append_assoc]
        · show e.offset + 1 + 1 = hdr.length + (packBitsMSB (bs ++ [false])).length
          rw [hplen1]
          omega
        · show e.offset + 1 < e.datalen * 2
          omega
        · show (((e.data ++ List.replicate e.datalen 0).set (e.offset + 1) 255).set
              (e.offset + 1) _).length = e.datalen * 2
          rw [List.length_set, List.length_set, List.length_append,
            List.length_replicate]
          omega
        · exact hbitgoal.symm
    · have hz1 : 1 ≤ e.datalen - (e.offset + 1) := by omega
      have hrepl : List.replicate (e.datalen - (e.offset + 1)) (0 : Nat)
          = 0 :: List.replicate (e.datalen - (e.offset + 1) - 1) 0 := by
        conv_lhs => rw [show e.datalen - (e.offset + 1)
            = (e.datalen - (e.offset + 1) - 1) + 1 by omega,
          List.replicate_succ]
      have hsetfresh : e.data.set (e.offset + 1) 255
          = (hdr ++ packBitsMSB bs)
              ++ 255 :: List.replicate (e.datalen - (e.offset + 1) - 1) 0 := by
        rw [hdata, hrepl, ← hAlen]
        exact set_append_mid _ _ _ _
      cases b with
      | true =>
        rw [gset_encode_bit_new_true e hbit8 hgrow]
        refine ⟨?_, ?_, ?_, ?_, hhdr, ?_⟩
        · show e.data.set (e.offset + 1) 255
            = hdr ++ packBitsMSB (bs ++ [true])
                ++ List.replicate (e.datalen - (e.offset + 1 + 1)) 0
          rw [hsetfresh, hpack,
            show byteOfBits [true] = 255 from rfl,
            show e.datalen - (e.offset + 1 + 1)
              = e.datalen - (e.offset + 1) - 1 by omega]
          simp [List.append_assoc]
        · show e.offset + 1 + 1 = hdr.length + (packBitsMSB (bs ++ [true])).length
          rw [hplen1]
          omega
        · show e.offset + 1 < e.datalen
          omega
        · show (e.data.set (e.offset + 1) 255).length = e.datalen
          rw [List.length_set]
          exact hlen
        · exact hbitgoal.symm
      | false =>
        rw [gset_encode_bit_new_false e hbit8 hgrow]
        have hget : (e.data.set (e.offset + 1) 255).getD (e.offset + 1) 0 = 255 := by
          rw [hsetfresh, ← hAlen]
          exact getD_append_mid _ _ _ _
        refine ⟨?_, ?_, ?_, ?_, hhdr, ?_⟩
        · show (e.data.set (e.offset + 1) 255).set (e.offset + 1)
              (((e.data.set (e.offset + 1) 255).getD (e.offset + 1) 0)
                &&& (255 ^^^ cbit_mask.getD 0 0))
            = hdr ++ packBitsMSB (bs ++ [false])
                ++ List.replicate (e.datalen - (e.offset + 1 + 1)) 0
          rw [show e.datalen - (e.offset + 1 + 1)
              = e.datalen - (e.offset + 1) - 1 by omega,
            hget, hsetfresh, ← hAlen, set_append_mid, hpack,
            show (255 : Nat) &&& (255 ^^^ cbit_mask.getD 0 0) = 127 from rfl,
            show byteOfBits [false] = 127 from rfl]
          simp [List.append_assoc]
        · show e.offset + 1 + 1 = hdr.length + (packBitsMSB (bs ++ [false])).length
          rw [hplen1]
          omega
        · show e.offset + 1 < e.datalen
          omega
        · show ((e.data.set (e.offset + 1) 255).set (e.offset + 1) _).length
            = e.datalen
          rw [List.length_set, List.length_set]
          exact hlen
        · exact hbitgoal.symm
  · have hk0 : bs.length ≠ 0 := by
      intro h0
      rw [h0] at hk
      exact hk rfl
    have hbitv : e.bit = bs.length % 8 - 1 := by
      rw [hbit, if_neg hk0, if_neg hk]
    have hr1 : 1 ≤ bs.length % 8 := by omega
    have hr7 : bs.length % 8 < 8 := Nat.mod_lt _ (by omega)
    have hbitlt : ¬ 8 ≤ e.bit + 1 := by
      rw [hbitv]
      omega
    have hbs : bs.take (8 * (bs.length / 8)) ++ bs.drop (8 * (bs.length / 8)) = bs :=
      List.take_append_drop _ bs
    have hcslen : (bs.take (8 * (bs.length / 8))).length = 8 * (bs.length / 8) := by
      rw [List.length_take]
      omega
    have hplen : (bs.drop (8 * (bs.length / 8))).length = bs.length % 8 := by
      rw [List.length_drop]
      omega
    have hpne : bs.drop (8 * (bs.length / 8)) ≠ [] := by
      intro h0
      rw [h0] at hplen
      simp at hplen
      omega
    have hcsmod : (bs.take (8 * (bs.length / 8))).length % 8 = 0 := by
      rw [hcslen]
      omega
    have hplen8 : (bs.drop (8 * (bs.length / 8))).length < 8 := by omega
    have hppack : packBitsMSB bs
        = packBitsMSB (bs.take (8 * (bs.length / 8)))
            ++ [byteOfBits (bs.drop (8 * (bs.length / 8)))] := by
      conv_lhs => rw [← hbs]
      rw [pack_chunks _ _ hcsmod, pack_single _ hpne (by omega)]
    have hppack2 : packBitsMSB (bs ++ [b])
        = packBitsMSB (bs.take (8 * (bs.length / 8)))
            ++ [byteOfBits (bs.drop (8 * (bs.length / 8)) ++ [b])] := by
      conv_lhs => rw [← hbs, List.append_assoc]
      rw [pack_chunks _ _ hcsmod,
        pack_single (bs.drop (8 * (bs.length / 8)) ++ [b]) (by simp)
          (by rw [List.length_append, hplen]; simp; omega)]
    have hplen2 : (packBitsMSB bs).length
        = (packBitsMSB (bs.take (8 * (bs.length / 8)))).length + 1 := by
      rw [hppack]
      simp
    have hplen3 : (packBitsMSB (bs ++ [b])).length
        = (packBitsMSB (bs.take (8 * (bs.length / 8)))).length + 1 := by
      rw [hppack2]
      simp
    have hoffA : e.offset
        = (hdr ++ packBitsMSB (bs.take (8 * (bs.length / 8)))).length := by
      rw [List.length_append]
      omega
    have hdataform : e.data = (hdr ++ packBitsMSB (bs.take (8 * (bs.length / 8))))
        ++ byteOfBits (bs.drop (8 * (bs.length / 8)))
            :: List.replicate (e.datalen - (e.offset + 1)) 0 := by
      rw [hdata, hppack]
      simp [List.append_assoc]
    have hbitgoal : (if (bs ++ [b]).length = 0 then 8
        else if (bs ++ [b]).length % 8 = 0 then 7
        else (bs ++ [b]).length % 8 - 1) = bs.length % 8 := by
      rw [hlenbs]
      split_ifs <;> first
      | exact (by assumption : False).elim
      | omega
    cases b with
    | true =>
      rw [gset_encode_bit_mid_true e hbitlt]
      refine ⟨?_, ?_, hlt, hlen, hhdr, ?_⟩
      · show e.data = hdr ++ packBitsMSB (bs ++ [true])
            ++ List.replicate (e.datalen - (e.offset + 1)) 0
        rw [hppack2, byteOfBits_snoc_true _ hplen8, hdataform]
        simp [List.append_assoc]
      · show e.offset + 1 = hdr.length + (packBitsMSB (bs ++ [true])).length
        rw [hplen3]
        omega
      · show e.bit + 1 = _
        rw [hbitgoal, hbitv]
        omega
    | false =>
      rw [gset_encode_bit_mid_false e hbitlt]
      have hgetp : e.data.getD e.offset 0
          = byteOfBits (bs.drop (8 * (bs.length / 8))) := by
        rw [hdataform, hoffA]
        exact getD_append_mid _ _ _ _
      have hbitidx : e.bit + 1 = (bs.drop (8 * (bs.length / 8))).length := by
        rw [hbitv, hplen]
        omega
      refine ⟨?_, ?_, hlt, ?_, hhdr, ?_⟩
      · show e.data.set e.offset
            ((e.data.getD e.offset 0) &&& (255 ^^^ cbit_mask.getD (e.bit + 1) 0))
          = hdr ++ packBitsMSB (bs ++ [false])
              ++ List.replicate (e.datalen - (e.offset + 1)) 0
        rw [hgetp, hbitidx, ← byteOfBits_snoc_false _ hplen8]
        conv_lhs => rw [hdataform, hoffA]
        rw [set_append_mid, hppack2]
        simp [List.append_assoc]
        rw [List.length_append] at hoffA
        omega
      · show e.offset + 1 = hdr.length + (packBitsMSB (bs ++ [false])).length
        rw [hplen3]
        omega
      · show (e.data.set e.offset _).length = e.datalen
        rw [List.length_set]
        exact hlen
      · show e.bit + 1 = _
        rw [hbitgoal, hbitv]
        omega

theorem EncRepr_foldl (xs : List Bool) (hdr : List Nat) (bs : List Bool)
    (e : GsetEncoder) (h : EncRepr hdr bs e) :
    EncRepr hdr (bs ++ xs) (xs.foldl gset_encode_bit e) := by
  induction xs generalizing bs e with
  | nil => simpa using h
  | cons x t ih =>
    simp only [List.foldl_cons]
    have h3 := ih (bs ++ [x]) (gset_encode_bit e x) (EncRepr_encode_bit hdr bs e x h)
    simpa [List.append_assoc] using h3

theorem EncRepr_encode_next (hdr : List Nat) (bs : List Bool) (e : GsetEncoder)
    (v : Nat) (h : EncRepr hdr bs e) :
    EncRepr hdr (bs ++ nextBits e.fixed_bits e.last v) (gset_encode_next e v) := by
  rw [gset_encode_next_eq_foldl]
  exact EncRepr_foldl _ hdr bs { e with last := v } h

theorem EncRepr_encode_hashes_rest (l : List Nat) (hdr : List Nat) (bs : List Bool)
    (e : GsetEncoder) (prev : Nat) (h : EncRepr hdr bs e)
    (hlast : e.last = prev) (hprev : prev < 2 ^ 64)
    (hbound : ∀ x ∈ l, x < 2 ^ 64)
    (hchain : List.Chain' (· ≤ ·) (prev :: l)) :
    EncRepr hdr
      (bs ++ ((deltasFrom prev (dedupAdjRest prev l)).map
          (golombBits e.fixed_bits)).flatten)
      (encode_hashes_rest e prev l) := by
  induction l generalizing bs e prev with
  | nil => simpa [dedupAdjRest, deltasFrom] using h
  | cons x t ih =>
    simp only [encode_hashes_rest, dedupAdjRest]
    by_cases hx : x = prev
    · rw [if_pos hx, if_pos hx]
      subst hx
      exact ih bs e x h hlast hprev
        (fun y hy => hbound y (List.mem_cons_of_mem _ hy)) hchain.tail
    · rw [if_neg hx, if_neg hx]
      have hle : prev ≤ x := (List.chain'_cons.mp hchain).1
      have hxlt : x < 2 ^ 64 := hbound x (List.mem_cons_self _ _)
      have hdelta : (x + 2 ^ 64 - e.last) % 2 ^ 64 = x - prev := by
        rw [hlast]
        omega
      have h2 := EncRepr_encode_next hdr bs e x h
      rw [nextBits, hdelta] at h2
      have h3 := ih (bs ++ golombBits e.fixed_bits (x - prev))
        (gset_encode_next e x) x h2 (gset_encode_next_fields e x).2 hxlt
        (fun y hy => hbound y (List.mem_cons_of_mem _ hy)) hchain.tail
      rw [(gset_encode_next_fields e x).1] at h3
      simp only [deltasFrom, List.map_cons, List.flatten_cons]
      simpa [List.append_assoc] using h3

theorem EncRepr_encode_hashes (l : List Nat) (hdr : List Nat) (e : GsetEncoder)
    (h : EncRepr hdr [] e) (hlast : e.last = 0)
    (hbound : ∀ x ∈ l, x < 2 ^ 64)
    (hchain : List.Chain' (· ≤ ·) l) :
    EncRepr hdr
      (((deltasFrom 0 (dedupAdj l)).map (golombBits e.fixed_bits)).flatten)
      (encode_hashes e l) := by
  cases l with
  | nil => simpa [dedupAdj, deltasFrom] using h
  | cons x t =>
    simp only [encode_hashes, dedupAdj, deltasFrom, List.map_cons, List.flatten_cons]
    have hxlt : x < 2 ^ 64 := hbound x (List.mem_cons_self _ _)
    have hdelta : (x + 2 ^ 64 - e.last) % 2 ^ 64 = x - 0 := by
      rw [hlast]
      omega
    have h2 := EncRepr_encode_next hdr [] e x h
    rw [nextBits, hdelta] at h2
    have h3 := EncRepr_encode_hashes_rest t hdr
      ([] ++ golombBits e.fixed_bits (x - 0)) (gset_encode_next e x) x h2
      (gset_encode_next_fields e x).2 hxlt
      (fun y hy => hbound y (List.mem_cons_of_mem _ hy)) hchain
    rw [(gset_encode_next_fields e x).1] at h3
    simpa [List.append_assoc] using h3

theorem EncRepr_init (d : Diary) (maxP : Nat) :
    EncRepr [h2_log2 (ceil_power_of_2 d.entries.length),
             min (d.mask_bits - h2_log2 (ceil_power_of_2 d.entries.length))
               (h2_log2 (ceil_power_of_2 maxP))]
      [] (digest_encoder_init d maxP) := by
  refine ⟨rfl, rfl, by show (1 : Nat) < 512; omega, ?_, rfl, rfl⟩
  show ((((List.replicate 512 (0 : Nat)).set 0 _).set 1 _).length) = 512
  rw [List.length_set, List.length_set, List.length_replicate]

/-- C6: for every diary of 64-bit entry hashes whose authority scope matches
the export request, the digest bytes after the 2-byte header are exactly the
spec's payload: right-shift each stored hash by `delta_bits`, sort ascending,
drop adjacent duplicates, Golomb-Rice encode the first-differences (the first
relative to 0) as a unary quotient of `delta >> log2p` one bits, a zero bit,
and the low `log2p` bits of `delta` most-significant first, all packed
most-significant-bit-first into bytes. -/
theorem digest_payload_matches_spec (d : Diary) (maxP : Nat)
    (auth : Option String) (hbound : ∀ x ∈ d.entries, x < 2 ^ 64)
    (hmatch : digest_authority_match d auth = true) :
    (h2_push_diary_digest_get d maxP auth).bytes
      = [h2_log2 (ceil_power_of_2 d.entries.length),
         min (d.mask_bits - h2_log2 (ceil_power_of_2 d.entries.length))
           (h2_log2 (ceil_power_of_2 maxP))]
        ++ spec_digest_tail d.entries d.mask_bits maxP := by
  rw [digest_get_eq_encode d maxP auth hmatch]
  have hbound2 : ∀ x ∈ sortAsc (d.entries.map
      (fun x => x >>> (digest_encoder_init d maxP).delta_bits)), x < 2 ^ 64 := by
    intro x hx
    have hx2 : x ∈ d.entries.map
        (fun x => x >>> (digest_encoder_init d maxP).delta_bits) :=
      (List.perm_insertionSort (· ≤ ·) _).mem_iff.mp hx
    obtain ⟨y, hy, rfl⟩ := List.mem_map.mp hx2
    calc y >>> (digest_encoder_init d maxP).delta_bits ≤ y := by
          rw [Nat.shiftRight_eq_div_pow]
          exact Nat.div_le_self _ _
      _ < 2 ^ 64 := hbound y hy
  have hchain : List.Chain' (· ≤ ·) (sortAsc (d.entries.map
      (fun x => x >>> (digest_encoder_init d maxP).delta_bits))) :=
    List.chain'_iff_pairwise.mpr (List.sorted_insertionSort _ _)
  have hmain := EncRepr_encode_hashes
    (sortAsc (d.entries.map
      (fun x => x >>> (digest_encoder_init d maxP).delta_bits)))
    [h2_log2 (ceil_power_of_2 d.entries.length),
     min (d.mask_bits - h2_log2 (ceil_power_of_2 d.entries.length))
       (h2_log2 (ceil_power_of_2 maxP))]
    (digest_encoder_init d maxP) (EncRepr_init d maxP) rfl hbound2 hchain
  obtain ⟨hdata, hoff, hlt, hlen, hhdr, hbit⟩ := hmain
  show (encode_hashes (digest_encoder_init d maxP)
      (sortAsc (d.entries.map
        (fun x => x >>> (digest_encoder_init d maxP).delta_bits)))).data.take
    ((encode_hashes (digest_encoder_init d maxP)
      (sortAsc (d.entries.map
        (fun x => x >>> (digest_encoder_init d maxP).delta_bits)))).offset + 1)
    = _
  rw [hdata, show (encode_hashes (digest_encoder_init d maxP)
      (sortAsc (d.entries.map
        (fun x => x >>> (digest_encoder_init d maxP).delta_bits)))).offset + 1
    = ([h2_log2 (ceil_power_of_2 d.entries.length),
        min (d.mask_bits - h2_log2 (ceil_power_of_2 d.entries.length))
          (h2_log2 (ceil_power_of_2 maxP))]
        ++ packBitsMSB (((deltasFrom 0 (dedupAdj (sortAsc (d.entries.map
            (fun x => x >>> (digest_encoder_init d maxP).delta_bits))))).map
          (golombBits (digest_encoder_init d maxP).fixed_bits)).flatten)).length
      from by rw [List.length_append]; exact hoff,
    List.take_left]
  rfl

/-- Witness for the C6 theorem at a concrete three-entry diary, request
authority left unscoped, `max_P = 256`. -/
theorem digest_payload_matches_spec_witness :
    (h2_push_diary_digest_get diaryAuthW 256 none).bytes
      = [h2_log2 (ceil_power_of_2 diaryAuthW.entries.length),
         min (diaryAuthW.mask_bits
                - h2_log2 (ceil_power_of_2 diaryAuthW.entries.length))
           (h2_log2 (ceil_power_of_2 256))]
        ++ spec_digest_tail diaryAuthW.entries diaryAuthW.mask_bits 256 :=
  digest_payload_matches_spec diaryAuthW 256 none (by decide) (by decide)

/-! ## Claim theorems: same-authority filtering (C8) -/

/-- C8: a link target whose parsed URI names a scheme different from the
request's, or hostinfo different from the request's authority, never
produces a push candidate. -/
theorem cross_origin_link_no_candidate (req : Req) (policy : H2PushPolicy)
    (params : List (String × String)) (uri : AprUri)
    (hdiff : (∃ s, uri.scheme = some s ∧ s ≠ req.scheme)
        ∨ (∃ hstr, uri.hostinfo = some hstr ∧ hstr ≠ req.authority)) :
    add_push req policy params (some uri) = none := by
  have hsa : same_authority req uri = false := by
    unfold same_authority
    rcases hdiff with ⟨s, hys, hneq⟩ | ⟨hstr, hyh, hneq⟩
    · rw [hys]
      simp [hneq]
    · by_cases hsch : uri.scheme.any (fun s => s != req.scheme) = true
      · simp [hsch]
      · rw [hyh]
        simp [hsch, hneq]
  unfold add_push
  by_cases hrel : (has_relation params "preload" && !has_param params "nopush") = true
  · rw [if_pos hrel]
    simp [hsa]
  · rw [if_neg hrel]

/-- Witness for the C8 theorem: an `https` request and an `http://other.com`
link target. -/
theorem cross_origin_link_no_candidate_witness :
    add_push reqW .H2_PUSH_DEFAULT (params_table [("rel", "preload")])
      (some { scheme := some "http", hostinfo := some "other.com",
              path := some "/x" }) = none :=
  cross_origin_link_no_candidate reqW .H2_PUSH_DEFAULT
    (params_table [("rel", "preload")])
    { scheme := some "http", hostinfo := some "other.com", path := some "/x" }
    (Or.inl ⟨"http", rfl, by decide⟩)

/-! ## Claim theorems: preload relation tokens (C9) -/

/-- C9 counterexample: `rel="preloaded preload"` contains `preload` as a
whole space-separated token, yet `has_relation` rejects it (the first
`strstr` occurrence sits inside `preloaded` and no further occurrence is
tried). -/
theorem preload_token_counterexample :
    "preload" ∈ spaceTokens "preloaded preload"
      ∧ has_relation (params_table [("rel", "preloaded preload")]) "preload"
          = false := by
  decide

theorem isPrefixOf_iff_take (l1 l2 : List Char) :
    l1.isPrefixOf l2 = true ↔ l2.take l1.length = l1 := by
  rw [List.isPrefixOf_iff_prefix, List.prefix_iff_eq_take]
  exact eq_comm

theorem occursAt_zero (hay needle : List Char) :
    occursAt hay needle 0 ↔ needle.isPrefixOf hay = true := by
  rw [isPrefixOf_iff_take]
  unfold occursAt
  rw [List.drop_zero]

theorem occursAt_succ (c : Char) (t needle : List Char) (i : Nat) :
    occursAt (c :: t) needle (i + 1) ↔ occursAt t needle i := by
  unfold occursAt
  rw [List.drop_succ_cons]

theorem occursAt_nil (needle : List Char) (i : Nat)
    (h : occursAt [] needle i) : needle = [] := by
  unfold occursAt at h
  simpa using h.symm

theorem strstr_idx_none_iff (needle hay : List Char) :
    strstr_idx needle hay = none ↔ ∀ i, ¬ occursAt hay needle i := by
  induction hay with
  | nil =>
    simp only [strstr_idx]
    by_cases hp : needle.isPrefixOf [] = true
    · rw [if_pos hp]
      constructor
      · intro hsn; exact Option.noConfusion hsn
      · intro hall; exact absurd ((occursAt_zero [] needle).mpr hp) (hall 0)
    · rw [if_neg hp]
      constructor
      · intro _ i hocc
        have hne := occursAt_nil needle i hocc
        subst hne
        exact hp rfl
      · intro _; rfl
  | cons c t ih =>
    simp only [strstr_idx]
    by_cases hp : needle.isPrefixOf (c :: t) = true
    · rw [if_pos hp]
      constructor
      · intro hsn; exact Option.noConfusion hsn
      · intro hall; exact absurd ((occursAt_zero _ needle).mpr hp) (hall 0)
    · rw [if_neg hp]
      constructor
      · intro hm i
        cases i with
        | zero => rw [occursAt_zero]; exact fun hc => hp hc
        | succ j =>
          rw [occursAt_succ]
          have ht : strstr_idx needle t = none := by
            cases hs : strstr_idx needle t with
            | none => rfl
            | some a => rw [hs] at hm; exact Option.noConfusion hm
          exact (ih.mp ht) j
      · intro hall
        have ht : strstr_idx needle t = none :=
          ih.mpr (fun j hocc => (hall (j + 1)) ((occursAt_succ c t needle j).mpr hocc))
        rw [ht]
        rfl

theorem strstr_idx_some_iff (needle hay : List Char) (i : Nat) :
    strstr_idx needle hay = some i
      ↔ occursAt hay needle i ∧ ∀ j, j < i → ¬ occursAt hay needle j := by
  induction hay generalizing i with
  | nil =>
    simp only [strstr_idx]
    by_cases hp : needle.isPrefixOf [] = true
    · rw [if_pos hp]
      have h0 : occursAt [] needle 0 := (occursAt_zero [] needle).mpr hp
      constructor
      · intro hsome
        have hi : 0 = i := by injection hsome
        subst hi
        exact ⟨h0, fun j hj => absurd hj (Nat.not_lt_zero j)⟩
      · rintro ⟨hocc, hmin⟩
        cases i with
        | zero => rfl
        | succ k => exact absurd h0 (hmin 0 (Nat.succ_pos k))
    · rw [if_neg hp]
      constructor
      · intro h; exact Option.noConfusion h
      · rintro ⟨hocc, -⟩
        exfalso
        have hne := occursAt_nil needle i hocc
        subst hne
        exact hp rfl
  | cons c t ih =>
    simp only [strstr_idx]
    by_cases hp : needle.isPrefixOf (c :: t) = true
    · rw [if_pos hp]
      have h0 : occursAt (c :: t) needle 0 := (occursAt_zero _ needle).mpr hp
      constructor
      · intro hsome
        have hi : 0 = i := by injection hsome
        subst hi
        exact ⟨h0, fun j hj => absurd hj (Nat.not_lt_zero j)⟩
      · rintro ⟨hocc, hmin⟩
        cases i with
        | zero => rfl
        | succ k => exact absurd h0 (hmin 0 (Nat.succ_pos k))
    · rw [if_neg hp]
      cases i with
      | zero =>
        constructor
        · intro hm
          exfalso
          cases hs : strstr_idx needle t with
          | none => rw [hs] at hm; exact Option.noConfusion hm
          | some a => rw [hs] at hm; simp at hm
        · rintro ⟨hocc, -⟩
          exact absurd ((occursAt_zero _ needle).mp hocc) hp
      | succ j =>
        have hmap : ((strstr_idx needle t).map (· + 1) = some (j + 1))
            ↔ strstr_idx needle t = some j := by
          cases hs : strstr_idx needle t with
          | none => simp
          | some a => simp
        rw [hmap, ih j]
        constructor
        · rintro ⟨hocc, hmin⟩
          refine ⟨(occursAt_succ c t needle j).mpr hocc, ?_⟩
          intro j2 hj2
          cases j2 with
          | zero => rw [occursAt_zero]; exact fun hc => hp hc
          | succ k =>
            rw [occursAt_succ]
            exact hmin k (by omega)
        · rintro ⟨hocc, hmin⟩
          refine ⟨(occursAt_succ c t needle j).mp hocc, ?_⟩
          intro k hk
          have hk1 := hmin (k + 1) (by omega)
          rw [occursAt_succ] at hk1
          exact hk1

theorem getD_eq_headD_drop (l : List Char) (n : Nat) (d : Char) :
    l.getD n d = (l.drop n).headD d := by
  induction l generalizing n with
  | nil => simp
  | cons a t ih =>
    cases n with
    | zero => simp
    | succ m => simp [ih m]

theorem has_relation_eq (params : List (String × String)) (rel val : String)
    (hget : apr_table_get params "rel" = some val) :
    has_relation params rel
      = (if val = rel then true
         else match strstr_idx rel.toList val.toList with
           | none => false
           | some i =>
             if i = 0 ∨ val.toList.getD (i - 1) 'x' = ' ' then
               match val.toList.drop (i + rel.length) with
               | [] => true
               | c :: _ => c == ' '
             else false) := by
  unfold has_relation
  rw [hget]

/-- C9 amended: the preload test accepts a `rel` value exactly when the
first occurrence of `preload` in it starts the string or follows a space,
and is followed by the end of the string or a space; a whole-token
occurrence after an earlier in-token occurrence is not recognised. -/
theorem preload_relation_first_occurrence (val : String) :
    has_relation (params_table [("rel", val)]) "preload" = true
      ↔ ∃ i, occursAt val.toList "preload".toList i
          ∧ (∀ j, j < i → ¬ occursAt val.toList "preload".toList j)
          ∧ (i = 0 ∨ val.toList.getD (i - 1) 'x' = ' ')
          ∧ (val.toList.length = i + 7 ∨ val.toList.getD (i + 7) 'x' = ' ') := by
  have hget : apr_table_get (params_table [("rel", val)]) "rel" = some val := rfl
  rw [has_relation_eq _ "preload" val hget]
  by_cases hval : val = "preload"
  · subst hval
    rw [if_pos rfl]
    constructor
    · intro _
      exact ⟨0, by unfold occursAt; rfl, fun j hj => absurd hj (Nat.not_lt_zero j),
        Or.inl rfl, Or.inl (by decide)⟩
    · intro _; rfl
  · rw [if_neg hval]
    cases hss : strstr_idx "preload".toList val.toList with
    | none =>
      have hno := (strstr_idx_none_iff "preload".toList val.toList).mp hss
      constructor
      · intro h; exact Bool.noConfusion h
      · rintro ⟨i, hocc, -, -, -⟩; exact absurd hocc (hno i)
    | some i0 =>
      obtain ⟨hocc0, hmin0⟩ := (strstr_idx_some_iff _ _ _).mp hss
      have hlen7 : ("preload".toList : List Char).length = 7 := rfl
      have hfit : i0 + 7 ≤ val.toList.length := by
        have hocc' := congrArg List.length hocc0
        rw [List.length_take, List.length_drop, hlen7] at hocc'
        omega
      have h7 : ("preload" : String).length = 7 := rfl
      rw [h7]
      simp only []
      constructor
      · intro hlhs
        by_cases hb1 : i0 = 0 ∨ val.toList.getD (i0 - 1) 'x' = ' '
        case neg =>
          rw [if_neg hb1] at hlhs
          exact Bool.noConfusion hlhs
        rw [if_pos hb1] at hlhs
        have hlhs2 : (match val.toList.drop (i0 + 7) with
            | [] => true
            | c :: _ => c == ' ') = true := hlhs
        refine ⟨i0, hocc0, hmin0, hb1, ?_⟩
        cases hdrop : val.toList.drop (i0 + 7) with
        | nil =>
          left
          have hdl := List.drop_eq_nil_iff.mp hdrop
          omega
        | cons ch rest =>
          right
          rw [hdrop] at hlhs2
          have hch : val.toList.getD (i0 + 7) 'x' = ch := by
            rw [getD_eq_headD_drop, hdrop]
            rfl
          rw [hch]
          simpa using hlhs2
      · rintro ⟨i, hocc, hmin, hb1, hb2⟩
        have hieq : i = i0 := by
          have hsome := (strstr_idx_some_iff "preload".toList val.toList i).mpr
            ⟨hocc, hmin⟩
          rw [hss] at hsome
          injection hsome with h
          exact h.symm
        subst hieq
        rw [if_pos hb1]
        rcases hb2 with hb2 | hb2
        · have hdrop : val.toList.drop (i + 7) = [] :=
            List.drop_eq_nil_iff.mpr (by omega)
          rw [hdrop]
        · cases hdrop : val.toList.drop (i + 7) with
          | nil => rfl
          | cons ch rest =>
            have hch : val.toList.getD (i + 7) 'x' = ch := by
              rw [getD_eq_headD_drop, hdrop]
              rfl
            rw [hch] at hb2
            simp [hb2]

/-! ## Claim theorems: parameter tables (C10) -/

theorem strcaseeq_iff (a b : String) :
    strcaseeq a b = true ↔ a.toList.map ascii_lower = b.toList.map ascii_lower := by
  simp [strcaseeq]

theorem strcaseeq_symm {a b : String} (h : strcaseeq a b = true) :
    strcaseeq b a = true := by
  rw [strcaseeq_iff] at h ⊢
  exact h.symm

theorem strcaseeq_trans {a b c : String} (h1 : strcaseeq a b = true)
    (h2 : strcaseeq b c = true) : strcaseeq a c = true := by
  rw [strcaseeq_iff] at h1 h2 ⊢
  exact h1.trans h2

theorem strcaseeq_not_symm {a b : String} (h : ¬ strcaseeq a b = true) :
    ¬ strcaseeq b a = true :=
  fun hc => h (strcaseeq_symm hc)

theorem apr_table_get_filter_ne (rest : List (String × String)) (k' k : String)
    (hkk : ¬ strcaseeq k' k = true) :
    apr_table_get (rest.filter (fun e2 => !(strcaseeq e2.1 k'))) k
      = apr_table_get rest k := by
  induction rest with
  | nil => rfl
  | cons e rest ih =>
    rw [List.filter_cons]
    by_cases he : strcaseeq e.1 k' = true
    · have hek : ¬ strcaseeq e.1 k = true :=
        fun hc => hkk (strcaseeq_trans (strcaseeq_symm he) hc)
      rw [if_neg (by simp [he])]
      rw [ih]
      show apr_table_get rest k = apr_table_get (e :: rest) k
      simp only [apr_table_get, if_neg hek]
    · rw [if_pos (by simp [he])]
      show apr_table_get (e :: rest.filter _) k = apr_table_get (e :: rest) k
      simp only [apr_table_get]
      by_cases hek : strcaseeq e.1 k = true
      · rw [if_pos hek, if_pos hek]
      · rw [if_neg hek, if_neg hek, ih]

theorem apr_table_get_setn (t : List (String × String)) (k' v' k : String) :
    apr_table_get (apr_table_setn t k' v') k
      = if strcaseeq k' k then some v' else apr_table_get t k := by
  induction t with
  | nil => rfl
  | cons e rest ih =>
    simp only [apr_table_setn]
    by_cases he' : strcaseeq e.1 k' = true
    · rw [if_pos he']
      simp only [apr_table_get]
      by_cases hek : strcaseeq e.1 k = true
      · have hk'k : strcaseeq k' k = true :=
          strcaseeq_trans (strcaseeq_symm he') hek
        rw [if_pos hek, if_pos hk'k]
      · have hk'k : ¬ strcaseeq k' k = true :=
          fun hc => hek (strcaseeq_trans he' hc)
        rw [if_neg hek, if_neg hk'k]
        show apr_table_get (rest.filter _) k = apr_table_get (e :: rest) k
        rw [apr_table_get_filter_ne rest k' k hk'k]
        simp only [apr_table_get, if_neg hek]
    · rw [if_neg he']
      simp only [apr_table_get]
      by_cases hek : strcaseeq e.1 k = true
      · have hk'k : ¬ strcaseeq k' k = true :=
          fun hc => (strcaseeq_not_symm he')
            (strcaseeq_trans hc (strcaseeq_symm hek))
        rw [if_pos hek, if_neg hk'k]
        simp only [apr_table_get, if_pos hek]
      · rw [if_neg hek, ih]
        by_cases hk'k : strcaseeq k' k = true
        · rw [if_pos hk'k, if_pos hk'k]
        · rw [if_neg hk'k, if_neg hk'k]
          simp only [apr_table_get, if_neg hek]

/-- C10 counterexample: a parameter stored with name `Rel` answers a lookup
of `rel` (APR tables match keys case-insensitively), where the claim says
only the exact-case name may match. -/
theorem param_case_sensitivity_counterexample :
    apr_table_get (params_table [("Rel", "preload")]) "rel" = some "preload"
      ∧ spec_case_sensitive_get [("Rel", "preload")] "rel" = none
      ∧ has_relation (params_table [("Rel", "preload")]) "preload" = true := by
  decide

/-- C10 amended: parameter lookup matches names case-insensitively, and
returns the value of the last stored (case-insensitively equal) occurrence
within the link-value. -/
theorem param_lookup_last_write (ps : List (String × String)) (k : String) :
    apr_table_get (params_table ps) k = last_write_get ps k := by
  induction ps using List.reverseRecOn with
  | nil => rfl
  | append_singleton ps e ih =>
    have h1 : params_table (ps ++ [e]) = apr_table_setn (params_table ps) e.1 e.2 := by
      simp [params_table, List.foldl_append]
    rw [h1, apr_table_get_setn, ih]
    by_cases he : strcaseeq e.1 k = true
    · rw [if_pos he]
      simp [last_write_get, List.reverse_append, List.find?_cons_of_pos, he]
    · rw [if_neg he]
      simp [last_write_get, List.reverse_append,
        List.find?_cons_of_neg, he]

end HttpdPush
